import Mathlib

/-!
The library libpriqueue: a sorted array of references

Shallow embedding of `src/Lab_09/src/libpriqueue/libpriqueue.c`.

* A `void *` is an address (`Ptr`), `NULL` is address `0`.
* A C `int` is an `Int`; the counters of this file stay far below `2^31` (they are bounded
  by the number of slots of the array), so no wrap-around is modelled.
* A function that takes `priqueue_t *q` returns its C result paired with the store it leaves.
* Every `for` loop is a recursive function on the loop variable that tests the loop condition
  exactly as the C code does; all of them are total.
-/

namespace PriQueue

/-- A `void *`: the address of caller-owned data. -/
abbrev Ptr := Nat

/-- The C null pointer. -/
def NULL : Ptr := 0

/-- Modelled from the spec: the `priqueue_t` declaration of `libpriqueue.h`, which is not part
of the sources at hand. The spec gives the store three attributes: the sequence of element
references (here the slots `queue[k]`, addressed by a C `int`; the slots at `size` and beyond
keep whatever was last written to them), the logical `size`, and the `comparer`. -/
structure priqueue_t where
  queue : Int → Ptr
  size : Int
  comparer : Ptr → Ptr → Int

/-- The assignment `queue[j] = v`. -/
def store (queue : Int → Ptr) (j : Int) (v : Ptr) : Int → Ptr :=
  fun k => if k = j then v else queue k

/-- The logical sequence of the store: slots `0 .. size-1`, front first. -/
def seq (q : priqueue_t) : List Ptr :=
  (List.range q.size.toNat).map (fun (k : Nat) => q.queue (k : Int))

/-- The function `priqueue_init`: `q->size = 0; q->comparer = comparer;` (the slots are left
as they are). -/
def priqueue_init (q : priqueue_t) (comparer : Ptr → Ptr → Int) : priqueue_t :=
  { q with size := 0, comparer := comparer }

/-- Inner loop of `priqueue_offer`:
`for (int j = ...; j > i; j--) queue[j] = queue[j - 1];` entered with the given `j`. -/
def offer_shift (queue : Int → Ptr) (i j : Int) : Int → Ptr :=
  if j > i then offer_shift (store queue j (queue (j - 1))) i (j - 1) else queue
termination_by (j - i).toNat
decreasing_by omega

/-- Outer loop of `priqueue_offer`, entered with loop variable `i`, together with the code
after the loop. -/
def offer_loop (q : priqueue_t) (ptr : Ptr) (i : Int) : Int × priqueue_t :=
  if i < q.size then
    if q.comparer (q.queue i) ptr ≥ 0 then
      -- q->size++; shift; q->queue[i] = ptr; return i;
      let size1 := q.size + 1
      (i, { q with size := size1, queue := store (offer_shift q.queue i (size1 - 1)) i ptr })
    else offer_loop q ptr (i + 1)
  else
    -- q->size++; q->queue[q->size - 1] = ptr; return 0;
    let size1 := q.size + 1
    (0, { q with size := size1, queue := store q.queue (size1 - 1) ptr })
termination_by (q.size - i).toNat
decreasing_by omega

/-- The function `priqueue_offer`: the returned `int` and the store afterwards. -/
def priqueue_offer (q : priqueue_t) (ptr : Ptr) : Int × priqueue_t :=
  offer_loop q ptr 0

/-- The function `priqueue_peek`:
`if (q->size == 0) return NULL; return q->queue[q->size - 1];` -/
def priqueue_peek (q : priqueue_t) : Ptr × priqueue_t :=
  if q.size = 0 then (NULL, q) else (q.queue (q.size - 1), q)

/-- The compacting loop shared by `priqueue_poll`, `priqueue_remove` and `priqueue_remove_at`:
`for (j = ...; j < q->size - 1; j++) queue[j] = queue[j + 1];` entered with the given `j`. -/
def shift_down (queue : Int → Ptr) (size j : Int) : Int → Ptr :=
  if j < size - 1 then shift_down (store queue j (queue (j + 1))) size (j + 1) else queue
termination_by (size - 1 - j).toNat
decreasing_by omega

/-- The function `priqueue_poll`: `NULL` on size 0, else slot 0 is saved, the slots are
compacted from 0, `q->size--`, and the saved reference is returned. -/
def priqueue_poll (q : priqueue_t) : Ptr × priqueue_t :=
  if q.size = 0 then (NULL, q)
  else
    let temp := q.queue 0
    (temp, { q with queue := shift_down q.queue q.size 0, size := q.size - 1 })

/-- The function `priqueue_at`:
`if (q->size - 1 < index && 0 > index) return NULL; return q->queue[index];` -/
def priqueue_at (q : priqueue_t) (index : Int) : Ptr × priqueue_t :=
  if q.size - 1 < index ∧ 0 > index then (NULL, q) else (q.queue index, q)

/-- Loop of `priqueue_remove`, entered with loop variable `i` and counter `count`. A match
compacts the slots, then does `count++; q->size--; i--;` and the loop header does `i++`. -/
def remove_loop (q : priqueue_t) (ptr : Ptr) (i count : Int) : Int × priqueue_t :=
  if i < q.size then
    if q.queue i = ptr then
      remove_loop { q with queue := shift_down q.queue q.size i, size := q.size - 1 } ptr
        (i - 1 + 1) (count + 1)
    else remove_loop q ptr (i + 1) count
  else (count, q)
termination_by (q.size - i).toNat
decreasing_by
  all_goals simp_wf
  all_goals omega

/-- The function `priqueue_remove`: the loop entered with `i = 0` and `count = 0`. -/
def priqueue_remove (q : priqueue_t) (ptr : Ptr) : Int × priqueue_t :=
  remove_loop q ptr 0 0

/-- Loop of `priqueue_remove_at`, entered with loop variable `i`. -/
def remove_at_loop (q : priqueue_t) (index i : Int) : Ptr × priqueue_t :=
  if i < q.size then
    if i = index then
      let temp := q.queue i
      (temp, { q with queue := shift_down q.queue q.size i, size := q.size - 1 })
    else remove_at_loop q index (i + 1)
  else (NULL, q)
termination_by (q.size - i).toNat
decreasing_by omega

/-- The function `priqueue_remove_at`: the loop entered with `i = 0`. -/
def priqueue_remove_at (q : priqueue_t) (index : Int) : Ptr × priqueue_t :=
  remove_at_loop q index 0

/-- The function `priqueue_size`: `return q->size;` -/
def priqueue_size (q : priqueue_t) : Int × priqueue_t :=
  (q.size, q)

/-- The store after `priqueue_offer` of each reference of `l` in turn. -/
def offer_all (q : priqueue_t) (l : List Ptr) : priqueue_t :=
  l.foldl (fun s p => (priqueue_offer s p).2) q

/-- The comparer contract of the spec: `comparer a b` and `comparer b a` have opposite signs,
and "sorts before or equal" is transitive. -/
structure TotalPreorder (cmp : Ptr → Ptr → Int) : Prop where
  consistent : ∀ a b, Int.sign (cmp a b) = - Int.sign (cmp b a)
  transitive : ∀ a b c, cmp a b ≤ 0 → cmp b c ≤ 0 → cmp a c ≤ 0

/-- Caller memory of the example scenario: four `int` cells at addresses 1, 2, 3, 4 holding
5, 3, 8, 3. -/
def cell : Ptr → Int
  | 1 => 5
  | 2 => 3
  | 3 => 8
  | 4 => 3
  | _ => 0

/-- Ascending integer compare on the referenced cells: `*(int *)a - *(int *)b`. -/
def compare_int (a b : Ptr) : Int := cell a - cell b

/-- A store whose slots are all `NULL`, before `priqueue_init`. -/
def blank : priqueue_t := ⟨fun _ => NULL, 0, fun _ _ => 0⟩

/-- Invariant I1 on a sequence: `comparer(e_i, e_{i+1}) <= 0` for every adjacent pair. -/
def adjacent_sorted (cmp : Ptr → Ptr → Int) (s : List Ptr) : Prop :=
  ∀ (i : Nat) (a b : Ptr), s[i]? = some a → s[i + 1]? = some b → cmp a b ≤ 0

/-- Slot accesses of the compacting loop entered with `j`: each iteration writes slot `j` and
reads slot `j + 1`. Every access is logged as the pair of the index and the value of `q->size`
at that moment. -/
def shift_accesses (size j : Int) : List (Int × Int) :=
  if j < size - 1 then (j, size) :: (j + 1, size) :: shift_accesses size (j + 1) else []
termination_by (size - 1 - j).toNat
decreasing_by omega

/-- The loop of `priqueue_remove` once more, instrumented. Next to the result of the loop it
gives the number of executions of the outer loop body and the log of all slot accesses
(`q->queue[i]` of the comparison, then those of the compacting loop), each with the value of
`q->size` at that moment. -/
def remove_loop_traced (q : priqueue_t) (ptr : Ptr) (i count : Int) :
    (Int × priqueue_t) × Nat × List (Int × Int) :=
  if i < q.size then
    if q.queue i = ptr then
      let r := remove_loop_traced
        { q with queue := shift_down q.queue q.size i, size := q.size - 1 } ptr
        (i - 1 + 1) (count + 1)
      (r.1, r.2.1 + 1, (i, q.size) :: (shift_accesses q.size i ++ r.2.2))
    else
      let r := remove_loop_traced q ptr (i + 1) count
      (r.1, r.2.1 + 1, (i, q.size) :: r.2.2)
  else ((count, q), 0, [])
termination_by (q.size - i).toNat
decreasing_by
  all_goals simp_wf
  all_goals omega

/-- One call of the interface with its arguments (`at_index` stands for `priqueue_at`). -/
inductive Op where
  | offer (ptr : Ptr)
  | peek
  | poll
  | at_index (index : Int)
  | remove (ptr : Ptr)
  | remove_at (index : Int)
  | size

/-- The store a call leaves. -/
def apply_op (q : priqueue_t) : Op → priqueue_t
  | .offer ptr => (priqueue_offer q ptr).2
  | .peek => (priqueue_peek q).2
  | .poll => (priqueue_poll q).2
  | .at_index index => (priqueue_at q index).2
  | .remove ptr => (priqueue_remove q ptr).2
  | .remove_at index => (priqueue_remove_at q index).2
  | .size => (priqueue_size q).2

/-- The store after a history of calls. -/
def run (q : priqueue_t) (ops : List Op) : priqueue_t :=
  ops.foldl apply_op q

/-- Entries a call inserts: one for `priqueue_offer`. -/
def inserted : Op → Int
  | .offer _ => 1
  | _ => 0

/-- Entries a call removes from the store `q` it is applied to: one for a `priqueue_poll` of a
store that is not empty, one for a `priqueue_remove_at` whose index is in `[0, size)`, and the
count that `priqueue_remove` returns. -/
def removed (q : priqueue_t) : Op → Int
  | .poll => if q.size = 0 then 0 else 1
  | .remove_at index => if 0 ≤ index ∧ index < q.size then 1 else 0
  | .remove ptr => (priqueue_remove q ptr).1
  | _ => 0

/-- Inserts minus removed entries over a history of calls that starts in the store `q`. -/
def net_inserted (q : priqueue_t) : List Op → Int
  | [] => 0
  | op :: ops => inserted op - removed q op + net_inserted (apply_op q op) ops

/-- Closed form of the inner loop of `priqueue_offer`: the slots `i+1 .. j` receive the entries
of `i .. j-1`, every other slot keeps its entry. -/
theorem offer_shift_apply (queue : Int → Ptr) (i j k : Int) :
    offer_shift queue i j k = if i < k ∧ k ≤ j then queue (k - 1) else queue k := by
  generalize h : (j - i).toNat = n
  induction n generalizing queue j with
  | zero =>
    rw [offer_shift]
    have hj : ¬ j > i := by omega
    have hk : ¬ (i < k ∧ k ≤ j) := by omega
    rw [if_neg hj, if_neg hk]
  | succ n ih =>
    rw [offer_shift]
    have hj : j > i := by omega
    rw [if_pos hj, ih _ (j - 1) (by omega)]
    unfold store
    by_cases h1 : k = j
    · subst h1
      have a1 : ¬ (i < k ∧ k ≤ k - 1) := by omega
      have a2 : i < k ∧ k ≤ k := by omega
      rw [if_neg a1, if_pos a2, if_pos rfl]
    · by_cases h2 : i < k ∧ k ≤ j
      · have a1 : i < k ∧ k ≤ j - 1 := by omega
        have a2 : ¬ (k - 1 = j) := by omega
        rw [if_pos a1, if_pos h2, if_neg a2]
      · have a1 : ¬ (i < k ∧ k ≤ j - 1) := by omega
        rw [if_neg a1, if_neg h2, if_neg h1]

/-- Closed form of the compacting loop: the slots `j .. size-2` receive the entries of
`j+1 .. size-1`, every other slot (slot `size-1` included) keeps its entry. -/
theorem shift_down_apply (queue : Int → Ptr) (size j k : Int) :
    shift_down queue size j k = if j ≤ k ∧ k < size - 1 then queue (k + 1) else queue k := by
  generalize h : (size - 1 - j).toNat = n
  induction n generalizing queue j with
  | zero =>
    rw [shift_down]
    have hj : ¬ j < size - 1 := by omega
    have hk : ¬ (j ≤ k ∧ k < size - 1) := by omega
    rw [if_neg hj, if_neg hk]
  | succ n ih =>
    rw [shift_down]
    have hj : j < size - 1 := by omega
    rw [if_pos hj, ih _ (j + 1) (by omega)]
    unfold store
    by_cases h1 : k = j
    · subst h1
      have a1 : ¬ (k + 1 ≤ k ∧ k < size - 1) := by omega
      have a2 : k ≤ k ∧ k < size - 1 := by omega
      rw [if_neg a1, if_pos a2, if_pos rfl]
    · by_cases h2 : j ≤ k ∧ k < size - 1
      · have a1 : j + 1 ≤ k ∧ k < size - 1 := by omega
        have a2 : ¬ (k + 1 = j) := by omega
        rw [if_pos a1, if_pos h2, if_neg a2]
      · have a1 : ¬ (j + 1 ≤ k ∧ k < size - 1) := by omega
        rw [if_neg a1, if_neg h2, if_neg h1]

/-- Closed form of the scan of `priqueue_offer` entered at `i`: it stops at the first slot
`p ≥ i` whose entry does not compare below `ptr` (or at `size`), and the result is as stated. -/
theorem offer_loop_spec (q : priqueue_t) (ptr : Ptr) (i : Int) (hi : i ≤ q.size) :
    ∃ p : Int, i ≤ p ∧ p ≤ q.size ∧
      (∀ k, i ≤ k → k < p → q.comparer (q.queue k) ptr < 0) ∧
      (p < q.size → q.comparer (q.queue p) ptr ≥ 0) ∧
      (offer_loop q ptr i).1 = (if p < q.size then p else 0) ∧
      (offer_loop q ptr i).2.size = q.size + 1 ∧
      (offer_loop q ptr i).2.comparer = q.comparer ∧
      (∀ k, (offer_loop q ptr i).2.queue k =
        if k = p then ptr else if p < k ∧ k ≤ q.size then q.queue (k - 1) else q.queue k) := by
  generalize h : (q.size - i).toNat = n
  induction n generalizing i with
  | zero =>
    have hs : ¬ i < q.size := by omega
    refine ⟨q.size, hi, le_refl _, fun k h1 h2 => by omega, fun h1 => by omega, ?_, ?_, ?_, ?_⟩
    all_goals rw [offer_loop, if_neg hs]
    · simp
    · intro k
      simp only [store]
      have e : q.size + 1 - 1 = q.size := by omega
      rw [e]
      by_cases h1 : k = q.size
      · rw [if_pos h1, if_pos h1]
      · have a : ¬ (q.size < k ∧ k ≤ q.size) := by omega
        rw [if_neg h1, if_neg h1, if_neg a]
  | succ n ih =>
    have hs : i < q.size := by omega
    by_cases hc : q.comparer (q.queue i) ptr ≥ 0
    · refine ⟨i, le_refl _, hi, fun k h1 h2 => by omega, fun _ => hc, ?_, ?_, ?_, ?_⟩
      all_goals rw [offer_loop, if_pos hs, if_pos hc]
      · simp [hs]
      · intro k
        simp only [store, offer_shift_apply]
        have e : q.size + 1 - 1 = q.size := by omega
        rw [e]
    · obtain ⟨p, h1, h2, h3, h4, h5, h6, h7, h8⟩ := ih (i + 1) (by omega) (by omega)
      refine ⟨p, by omega, h2, ?_, h4, ?_, ?_, ?_, ?_⟩
      · intro k hk1 hk2
        by_cases hk : k = i
        · subst hk; omega
        · exact h3 k (by omega) hk2
      all_goals rw [offer_loop, if_pos hs, if_neg hc]
      · exact h5
      · exact h6
      · exact h7
      · exact h8

theorem seq_length (q : priqueue_t) : (seq q).length = q.size.toNat := by
  simp [seq]

theorem seq_getElem? (q : priqueue_t) (n : Nat) :
    (seq q)[n]? = if (n : Int) < q.size then some (q.queue n) else none := by
  unfold seq
  rw [List.getElem?_map]
  by_cases h : (n : Int) < q.size
  · have h1 : n < q.size.toNat := by omega
    rw [if_pos h, List.getElem?_range h1]; rfl
  · have h1 : (List.range q.size.toNat).length ≤ n := by simp; omega
    rw [if_neg h, List.getElem?_eq_none h1]; rfl

theorem insert_getElem? {α : Type} (s : List α) (x : α) (i n : Nat) (hi : i ≤ s.length) :
    (s.take i ++ [x] ++ s.drop i)[n]? =
      if n < i then s[n]? else if n = i then some x else s[n - 1]? := by
  have hl : (s.take i).length = i := by simp [hi]
  by_cases h1 : n < i
  · rw [if_pos h1, List.append_assoc, List.getElem?_append_left (by omega)]
    rw [List.getElem?_take_of_lt h1]
  · rw [if_neg h1, List.append_assoc, List.getElem?_append_right (by omega), hl]
    by_cases h2 : n = i
    · subst h2; simp
    · rw [if_neg h2]
      have : n - i = (n - i - 1) + 1 := by omega
      rw [this]
      simp only [List.singleton_append, List.getElem?_cons_succ, List.getElem?_drop]
      congr 1; omega

theorem takeWhile_length_eq {α : Type} (P : α → Bool) (s : List α) (i : Nat)
    (hi : i ≤ s.length) (h1 : ∀ k e, k < i → s[k]? = some e → P e = true)
    (h2 : ∀ e, s[i]? = some e → P e = false) : (s.takeWhile P).length = i := by
  induction s generalizing i with
  | nil => simp at hi; subst hi; rfl
  | cons a t ih =>
    cases i with
    | zero =>
      have : P a = false := h2 a (by simp)
      simp [List.takeWhile, this]
    | succ j =>
      have ha : P a = true := h1 0 a (by omega) (by simp)
      have := ih j (by simpa using hi) (fun k e hk he => h1 (k + 1) e (by omega) (by simpa using he))
        (fun e he => h2 e (by simpa using he))
      simp [List.takeWhile, ha, this]

/-- Index at which `priqueue_offer` places `x`: the number of leading entries of the sequence
that compare strictly below `x`. -/
theorem offer_closed (q : priqueue_t) (x : Ptr) (hsize : 0 ≤ q.size) :
    ∃ p : Nat, p = ((seq q).takeWhile (fun e => decide (q.comparer e x < 0))).length ∧
      (p : Int) ≤ q.size ∧
      (∀ k : Int, 0 ≤ k → k < p → q.comparer (q.queue k) x < 0) ∧
      ((p : Int) < q.size → q.comparer (q.queue p) x ≥ 0) ∧
      (priqueue_offer q x).1 = (if (p : Int) < q.size then (p : Int) else 0) ∧
      (priqueue_offer q x).2.size = q.size + 1 ∧
      (priqueue_offer q x).2.comparer = q.comparer ∧
      (∀ k : Int, (priqueue_offer q x).2.queue k =
        if k = p then x else if (p : Int) < k ∧ k ≤ q.size then q.queue (k - 1) else q.queue k) := by
  obtain ⟨p, h1, h2, h3, h4, h5, h6, h7, h8⟩ := offer_loop_spec q x 0 hsize
  have hp : ((p.toNat : Nat) : Int) = p := Int.toNat_of_nonneg h1
  refine ⟨p.toNat, ?_, ?_, ?_, ?_, ?_, h6, h7, ?_⟩
  · symm
    apply takeWhile_length_eq
    · rw [seq_length]; omega
    · intro k e hk he
      rw [seq_getElem?] at he
      split at he
      · cases he
        simpa using h3 k (by omega) (by omega)
      · cases he
    · intro e he
      rw [seq_getElem?, hp] at he
      split at he
      · cases he
        rename_i hlt
        simpa using h4 hlt
      · cases he
  · rw [hp]; exact h2
  · rw [hp]; exact h3
  · rw [hp]; exact h4
  · rw [hp]; exact h5
  · rw [hp]; exact h8

theorem seq_insert (q r : priqueue_t) (x : Ptr) (p : Nat) (hp : (p : Int) ≤ q.size)
    (hs : r.size = q.size + 1)
    (hq : ∀ k : Int, r.queue k =
      if k = p then x else if (p : Int) < k ∧ k ≤ q.size then q.queue (k - 1) else q.queue k) :
    seq r = (seq q).take p ++ [x] ++ (seq q).drop p := by
  apply List.ext_getElem?
  intro n
  rw [insert_getElem? _ _ _ _ (by rw [seq_length]; omega), seq_getElem?, hs, hq]
  by_cases h1 : n < p
  · have a1 : ¬ ((n : Int) = p) := by omega
    have a2 : ¬ ((p : Int) < n ∧ (n : Int) ≤ q.size) := by omega
    have a3 : (n : Int) < q.size + 1 := by omega
    have a4 : (n : Int) < q.size := by omega
    rw [if_pos h1, if_neg a1, if_neg a2, if_pos a3, seq_getElem?, if_pos a4]
  · by_cases h2 : n = p
    · subst h2
      have a3 : (n : Int) < q.size + 1 := by omega
      rw [if_neg h1, if_pos rfl, if_pos rfl, if_pos a3]
    · have a1 : ¬ ((n : Int) = p) := by omega
      rw [if_neg h1, if_neg h2, if_neg a1, seq_getElem?]
      by_cases h3 : (n : Int) < q.size + 1
      · have a2 : (p : Int) < n ∧ (n : Int) ≤ q.size := by omega
        have a4 : ((n - 1 : Nat) : Int) < q.size := by omega
        have a5 : ((n - 1 : Nat) : Int) = (n : Int) - 1 := by omega
        rw [if_pos h3, if_pos a2, if_pos a4, a5]
      · have a4 : ¬ (((n - 1 : Nat) : Int) < q.size) := by omega
        rw [if_neg h3, if_neg a4]

theorem seq_offer (q : priqueue_t) (x : Ptr) (hsize : 0 ≤ q.size) :
    seq (priqueue_offer q x).2 =
      (seq q).take ((seq q).takeWhile (fun e => decide (q.comparer e x < 0))).length ++ [x] ++
        (seq q).drop ((seq q).takeWhile (fun e => decide (q.comparer e x < 0))).length := by
  obtain ⟨p, h0, h1, _, _, _, h6, _, h8⟩ := offer_closed q x hsize
  rw [← h0]
  exact seq_insert q _ x p h1 h6 h8

theorem flip_of_nonneg {cmp : Ptr → Ptr → Int} (h : TotalPreorder cmp) (a b : Ptr)
    (hab : 0 ≤ cmp a b) : cmp b a ≤ 0 := by
  by_contra hc
  have h1 : Int.sign (cmp b a) = 1 := Int.sign_eq_one_of_pos (by omega)
  have h2 := h.consistent a b
  rw [h1] at h2
  have h3 : cmp a b < 0 := Int.sign_eq_neg_one_iff_neg.mp h2
  omega

theorem offer_all_cons (q : priqueue_t) (x : Ptr) (l : List Ptr) :
    offer_all q (x :: l) = offer_all (priqueue_offer q x).2 l := rfl

theorem offer_sorted {cmp : Ptr → Ptr → Int} (h : TotalPreorder cmp) (q : priqueue_t) (x : Ptr)
    (hsize : 0 ≤ q.size) (hc : q.comparer = cmp)
    (hs : ∀ k : Int, 0 ≤ k → k + 1 < q.size → cmp (q.queue k) (q.queue (k + 1)) ≤ 0) :
    ∀ k : Int, 0 ≤ k → k + 1 < (priqueue_offer q x).2.size →
      cmp ((priqueue_offer q x).2.queue k) ((priqueue_offer q x).2.queue (k + 1)) ≤ 0 := by
  obtain ⟨p, _, h1, h3, h4, _, h6, _, h8⟩ := offer_closed q x hsize
  rw [hc] at h3 h4
  intro k hk0 hk1
  rw [h6] at hk1
  rw [h8 k, h8 (k + 1)]
  by_cases c1 : k + 1 < p
  · have a1 : ¬ (k = p) := by omega
    have a2 : ¬ ((p : Int) < k ∧ k ≤ q.size) := by omega
    have a3 : ¬ (k + 1 = p) := by omega
    have a4 : ¬ ((p : Int) < k + 1 ∧ k + 1 ≤ q.size) := by omega
    rw [if_neg a1, if_neg a2, if_neg a3, if_neg a4]
    exact hs k hk0 (by omega)
  · by_cases c2 : k + 1 = p
    · have a1 : ¬ (k = p) := by omega
      have a2 : ¬ ((p : Int) < k ∧ k ≤ q.size) := by omega
      rw [if_neg a1, if_neg a2, if_pos c2]
      exact le_of_lt (h3 k hk0 (by omega))
    · by_cases c3 : k = p
      · have a4 : (p : Int) < k + 1 ∧ k + 1 ≤ q.size := by omega
        have a5 : k + 1 - 1 = (p : Int) := by omega
        rw [if_pos c3, if_neg c2, if_pos a4, a5]
        exact flip_of_nonneg h _ _ (h4 (by omega))
      · have a2 : (p : Int) < k ∧ k ≤ q.size := by omega
        have a4 : (p : Int) < k + 1 ∧ k + 1 ≤ q.size := by omega
        have a5 : k + 1 - 1 = k - 1 + 1 := by omega
        rw [if_neg c3, if_pos a2, if_neg c2, if_pos a4, a5]
        exact hs (k - 1) (by omega) (by omega)

theorem offer_all_inv {cmp : Ptr → Ptr → Int} (h : TotalPreorder cmp) (l : List Ptr)
    (q : priqueue_t) (hsize : 0 ≤ q.size) (hc : q.comparer = cmp)
    (hs : ∀ k : Int, 0 ≤ k → k + 1 < q.size → cmp (q.queue k) (q.queue (k + 1)) ≤ 0) :
    (offer_all q l).size = q.size + l.length ∧ (offer_all q l).comparer = cmp ∧
      ∀ k : Int, 0 ≤ k → k + 1 < (offer_all q l).size →
        cmp ((offer_all q l).queue k) ((offer_all q l).queue (k + 1)) ≤ 0 := by
  induction l generalizing q with
  | nil => exact ⟨by simp [offer_all], hc, hs⟩
  | cons x t ih =>
    obtain ⟨p, _, _, _, _, _, h6, h7, _⟩ := offer_closed q x hsize
    rw [offer_all_cons]
    obtain ⟨i1, i2, i3⟩ := ih (priqueue_offer q x).2 (by omega) (by rw [h7, hc])
      (offer_sorted h q x hsize hc hs)
    refine ⟨?_, i2, i3⟩
    rw [i1, h6, List.length_cons]; push_cast; ring

/-- C1 (sortedness): for a comparer that is a consistent total preorder, the store obtained
from `priqueue_init` followed by `priqueue_offer` of each reference of a list holds all of
them (its size is the length of the list) and every adjacent pair `e_i, e_{i+1}` of its
sequence satisfies `comparer(e_i, e_{i+1}) <= 0`. -/
theorem C1_offer_sorted (cmp : Ptr → Ptr → Int) (hcmp : TotalPreorder cmp) (q0 : priqueue_t)
    (l : List Ptr) :
    (offer_all (priqueue_init q0 cmp) l).size = l.length ∧
      (offer_all (priqueue_init q0 cmp) l).comparer = cmp ∧
      ∀ (i : Nat) (a b : Ptr),
        (seq (offer_all (priqueue_init q0 cmp) l))[i]? = some a →
        (seq (offer_all (priqueue_init q0 cmp) l))[i + 1]? = some b →
        (offer_all (priqueue_init q0 cmp) l).comparer a b ≤ 0 := by
  obtain ⟨h1, h2, h3⟩ := offer_all_inv hcmp l (priqueue_init q0 cmp) (le_refl _) rfl
    (fun k hk0 hk1 => by simp [priqueue_init] at hk1; omega)
  refine ⟨by simpa [priqueue_init] using h1, h2, ?_⟩
  intro i a b ha hb
  rw [seq_getElem?] at ha hb
  split at hb
  · rename_i hlt
    have hlt2 : (i : Int) < (offer_all (priqueue_init q0 cmp) l).size := by omega
    rw [if_pos hlt2] at ha
    cases ha; cases hb
    rw [h2]
    have := h3 i (by omega) (by omega)
    simpa using this
  · cases hb

theorem compare_int_preorder : TotalPreorder compare_int where
  consistent a b := by
    unfold compare_int
    rw [← Int.sign_neg]; congr 1; ring
  transitive a b c h1 h2 := by
    unfold compare_int at *; omega

/-- Witness of C1 on the scenario of the spec: ascending integer compare, inserting the
references of 5, 3, 8, 3. -/
theorem C1_offer_sorted_witness :
    TotalPreorder compare_int ∧
      (offer_all (priqueue_init blank compare_int) [1, 2, 3, 4]).size = ([1, 2, 3, 4] : List Ptr).length ∧
      (offer_all (priqueue_init blank compare_int) [1, 2, 3, 4]).comparer = compare_int ∧
      ∀ (i : Nat) (a b : Ptr),
        (seq (offer_all (priqueue_init blank compare_int) [1, 2, 3, 4]))[i]? = some a →
        (seq (offer_all (priqueue_init blank compare_int) [1, 2, 3, 4]))[i + 1]? = some b →
        (offer_all (priqueue_init blank compare_int) [1, 2, 3, 4]).comparer a b ≤ 0 :=
  ⟨compare_int_preorder, C1_offer_sorted compare_int compare_int_preorder blank [1, 2, 3, 4]⟩

theorem seq_getElem?_some (q : priqueue_t) (n : Nat) (v : Ptr) :
    (seq q)[n]? = some v ↔ (n : Int) < q.size ∧ q.queue n = v := by
  rw [seq_getElem?]
  by_cases h : (n : Int) < q.size
  · rw [if_pos h]; simp [h]
  · rw [if_neg h]; simp [h]

theorem offer_all_eval (cmp : Ptr → Ptr → Int) (l : List Ptr) (q : priqueue_t)
    (hsize : 0 ≤ q.size) (hc : q.comparer = cmp) :
    (offer_all q l).size = q.size + l.length ∧ (offer_all q l).comparer = cmp ∧
      seq (offer_all q l) = l.foldl (fun s x =>
        s.take (s.takeWhile (fun e => decide (cmp e x < 0))).length ++ [x] ++
          s.drop (s.takeWhile (fun e => decide (cmp e x < 0))).length) (seq q) := by
  induction l generalizing q with
  | nil => exact ⟨by simp [offer_all], hc, rfl⟩
  | cons x t ih =>
    obtain ⟨p, _, _, _, _, _, h6, h7, _⟩ := offer_closed q x hsize
    rw [offer_all_cons]
    obtain ⟨i1, i2, i3⟩ := ih (priqueue_offer q x).2 (by omega) (by rw [h7, hc])
    refine ⟨?_, i2, ?_⟩
    · rw [i1, h6, List.length_cons]; push_cast; ring
    · rw [i3, seq_offer q x hsize, hc]; rfl

/-- C2 (insert placement): on a store with sequence `s`, `priqueue_offer(q, x)` leaves the
sequence `take i s ++ [x] ++ drop i s`, where `i` is the smallest index whose entry `e` has
`comparer(e, x) >= 0`, or `i = length s` when there is none; the size grows by one. -/
theorem C2_offer_placement (q : priqueue_t) (x : Ptr) (hsize : 0 ≤ q.size) :
    ∃ i : Nat, i ≤ (seq q).length ∧
      (∀ (k : Nat) (e : Ptr), k < i → (seq q)[k]? = some e → ¬ q.comparer e x ≥ 0) ∧
      (∀ e : Ptr, (seq q)[i]? = some e → q.comparer e x ≥ 0) ∧
      seq (priqueue_offer q x).2 = (seq q).take i ++ [x] ++ (seq q).drop i ∧
      (priqueue_offer q x).2.size = q.size + 1 ∧
      (priqueue_offer q x).2.comparer = q.comparer := by
  obtain ⟨p, _, h1, h3, h4, _, h6, h7, h8⟩ := offer_closed q x hsize
  refine ⟨p, by rw [seq_length]; omega, ?_, ?_, seq_insert q _ x p h1 h6 h8, h6, h7⟩
  · intro k e hk he
    obtain ⟨_, rfl⟩ := (seq_getElem?_some q k e).mp he
    have := h3 k (by omega) (by omega)
    omega
  · intro e he
    obtain ⟨hlt, rfl⟩ := (seq_getElem?_some q p e).mp he
    exact h4 hlt

/-- Witness of C2: inserting the reference of the second 3 into the store built from 5, 3, 8. -/
theorem C2_offer_placement_witness :
    0 ≤ (offer_all (priqueue_init blank compare_int) [1, 2, 3]).size ∧
    ∃ i : Nat, i ≤ (seq (offer_all (priqueue_init blank compare_int) [1, 2, 3])).length ∧
      (∀ (k : Nat) (e : Ptr), k < i →
        (seq (offer_all (priqueue_init blank compare_int) [1, 2, 3]))[k]? = some e →
        ¬ (offer_all (priqueue_init blank compare_int) [1, 2, 3]).comparer e 4 ≥ 0) ∧
      (∀ e : Ptr, (seq (offer_all (priqueue_init blank compare_int) [1, 2, 3]))[i]? = some e →
        (offer_all (priqueue_init blank compare_int) [1, 2, 3]).comparer e 4 ≥ 0) ∧
      seq (priqueue_offer (offer_all (priqueue_init blank compare_int) [1, 2, 3]) 4).2 =
        (seq (offer_all (priqueue_init blank compare_int) [1, 2, 3])).take i ++ [4] ++
          (seq (offer_all (priqueue_init blank compare_int) [1, 2, 3])).drop i ∧
      (priqueue_offer (offer_all (priqueue_init blank compare_int) [1, 2, 3]) 4).2.size =
        (offer_all (priqueue_init blank compare_int) [1, 2, 3]).size + 1 ∧
      (priqueue_offer (offer_all (priqueue_init blank compare_int) [1, 2, 3]) 4).2.comparer =
        (offer_all (priqueue_init blank compare_int) [1, 2, 3]).comparer :=
  have h : 0 ≤ (offer_all (priqueue_init blank compare_int) [1, 2, 3]).size := by
    rw [(offer_all_eval compare_int [1, 2, 3] (priqueue_init blank compare_int)
      (by decide) rfl).1]
    decide
  ⟨h, C2_offer_placement _ 4 h⟩

theorem scenario_seq :
    seq (offer_all (priqueue_init blank compare_int) [1, 2, 3, 4]) = [4, 2, 1, 3] := by
  rw [(offer_all_eval compare_int [1, 2, 3, 4] (priqueue_init blank compare_int)
      (by decide) rfl).2.2]
  decide

theorem offer_ret (q : priqueue_t) (x : Ptr) (hsize : 0 ≤ q.size) :
    (priqueue_offer q x).1 =
      if (((seq q).takeWhile (fun e => decide (q.comparer e x < 0))).length : Int) < q.size
      then (((seq q).takeWhile (fun e => decide (q.comparer e x < 0))).length : Int) else 0 := by
  obtain ⟨p, h0, _, _, _, h5, _, _, _⟩ := offer_closed q x hsize
  rw [← h0]; exact h5

theorem poll_nonempty (q : priqueue_t) (h : q.size ≠ 0) :
    (priqueue_poll q).1 = q.queue 0 ∧ (priqueue_poll q).2.size = q.size - 1 ∧
      (priqueue_poll q).2.comparer = q.comparer ∧
      ∀ k : Int, (priqueue_poll q).2.queue k =
        if 0 ≤ k ∧ k < q.size - 1 then q.queue (k + 1) else q.queue k := by
  unfold priqueue_poll
  rw [if_neg h]
  exact ⟨rfl, rfl, rfl, fun k => shift_down_apply _ _ _ _⟩

theorem poll_empty (q : priqueue_t) (h : q.size = 0) : priqueue_poll q = (NULL, q) := by
  unfold priqueue_poll
  rw [if_pos h]

theorem seq_cons (q : priqueue_t) (e0 : Ptr) (rest : List Ptr) (h : seq q = e0 :: rest) :
    1 ≤ q.size ∧ q.queue 0 = e0 ∧
      ∀ n : Nat, rest[n]? = if (n : Int) + 1 < q.size then some (q.queue (n + 1)) else none := by
  have hl : (seq q).length = rest.length + 1 := by rw [h]; rfl
  rw [seq_length] at hl
  have h0 : (seq q)[0]? = some e0 := by rw [h]; simp
  obtain ⟨_, h2⟩ := (seq_getElem?_some q 0 e0).mp h0
  refine ⟨by omega, by simpa using h2, ?_⟩
  intro n
  have hn : (seq q)[n + 1]? = rest[n]? := by rw [h]; simp
  rw [← hn, seq_getElem?]
  push_cast
  rfl

theorem seq_poll_tail (q : priqueue_t) (e0 : Ptr) (rest : List Ptr) (h : seq q = e0 :: rest) :
    (priqueue_poll q).1 = e0 ∧ seq (priqueue_poll q).2 = rest ∧
      (priqueue_poll q).2.size = q.size - 1 ∧
      (priqueue_poll q).2.comparer = q.comparer := by
  obtain ⟨h1, h2, h3⟩ := seq_cons q e0 rest h
  obtain ⟨p1, p2, p3, p4⟩ := poll_nonempty q (by omega)
  refine ⟨by rw [p1, h2], ?_, p2, p3⟩
  apply List.ext_getElem?
  intro n
  rw [seq_getElem?, h3, p2, p4]
  by_cases c : (n : Int) < q.size - 1
  · have a1 : (0 : Int) ≤ n ∧ (n : Int) < q.size - 1 := by omega
    have a2 : (n : Int) + 1 < q.size := by omega
    rw [if_pos c, if_pos a1, if_pos a2]
  · have a2 : ¬ ((n : Int) + 1 < q.size) := by omega
    rw [if_neg c, if_neg a2]

/-- C7 (poll removes the front): on a store with sequence `e_0, e_1, ..., e_{n-1}` (`n >= 1`)
`priqueue_poll` returns `e_0` and leaves the sequence `e_1, ..., e_{n-1}` with size `n - 1`;
on the empty store it returns `NULL` and leaves the store as it is. -/
theorem C7_poll_front (q : priqueue_t) :
    (∀ (e0 : Ptr) (rest : List Ptr), seq q = e0 :: rest →
      (priqueue_poll q).1 = e0 ∧ seq (priqueue_poll q).2 = rest ∧
      (priqueue_poll q).2.size = q.size - 1 ∧
      (priqueue_poll q).2.comparer = q.comparer) ∧
    (q.size = 0 → priqueue_poll q = (NULL, q)) :=
  ⟨seq_poll_tail q, poll_empty q⟩

theorem pair_size : (offer_all (priqueue_init blank compare_int) [2, 1]).size = 2 := by
  rw [(offer_all_eval compare_int [2, 1] (priqueue_init blank compare_int) (by decide) rfl).1]
  decide

theorem pair_seq : seq (offer_all (priqueue_init blank compare_int) [2, 1]) = [2, 1] := by
  rw [(offer_all_eval compare_int [2, 1] (priqueue_init blank compare_int) (by decide) rfl).2.2]
  decide

/-- Witness of C7: polling the store that holds the references of 3 and 5, and polling the
freshly initialised store. -/
theorem C7_poll_front_witness :
    (seq (offer_all (priqueue_init blank compare_int) [2, 1]) = 2 :: [1] ∧
      (priqueue_poll (offer_all (priqueue_init blank compare_int) [2, 1])).1 = 2 ∧
      seq (priqueue_poll (offer_all (priqueue_init blank compare_int) [2, 1])).2 = [1] ∧
      (priqueue_poll (offer_all (priqueue_init blank compare_int) [2, 1])).2.size =
        (offer_all (priqueue_init blank compare_int) [2, 1]).size - 1 ∧
      (priqueue_poll (offer_all (priqueue_init blank compare_int) [2, 1])).2.comparer =
        (offer_all (priqueue_init blank compare_int) [2, 1]).comparer) ∧
    ((priqueue_init blank compare_int).size = 0 ∧
      priqueue_poll (priqueue_init blank compare_int) =
        (NULL, priqueue_init blank compare_int)) :=
  ⟨⟨pair_seq, (C7_poll_front _).1 2 [1] pair_seq⟩,
    ⟨rfl, (C7_poll_front (priqueue_init blank compare_int)).2 rfl⟩⟩

/-- C9 (indexed access in range): for `0 <= i < size`, `priqueue_at(q, i)` returns the entry
`e_i` of the sequence and leaves the store as it is. -/
theorem C9_at_in_range (q : priqueue_t) (i : Int) (h0 : 0 ≤ i) (h1 : i < q.size) :
    priqueue_at q i = (q.queue i, q) ∧ (seq q)[i.toNat]? = some (priqueue_at q i).1 := by
  have e : priqueue_at q i = (q.queue i, q) := by
    unfold priqueue_at
    rw [if_neg (by omega)]
  refine ⟨e, ?_⟩
  rw [e, seq_getElem?_some]
  rw [Int.toNat_of_nonneg h0]
  exact ⟨h1, rfl⟩

/-- Witness of C9: index 1 of the store that holds the references of 3 and 5. -/
theorem C9_at_in_range_witness :
    ((0 : Int) ≤ 1 ∧ (1 : Int) < (offer_all (priqueue_init blank compare_int) [2, 1]).size) ∧
    (priqueue_at (offer_all (priqueue_init blank compare_int) [2, 1]) 1 =
        ((offer_all (priqueue_init blank compare_int) [2, 1]).queue 1,
          offer_all (priqueue_init blank compare_int) [2, 1]) ∧
      (seq (offer_all (priqueue_init blank compare_int) [2, 1]))[(1 : Int).toNat]? =
        some (priqueue_at (offer_all (priqueue_init blank compare_int) [2, 1]) 1).1) :=
  have h : (1 : Int) < (offer_all (priqueue_init blank compare_int) [2, 1]).size := by
    rw [pair_size]; decide
  ⟨⟨by decide, h⟩, C9_at_in_range _ 1 (by decide) h⟩

theorem sorted_front_le {cmp : Ptr → Ptr → Int} (h : TotalPreorder cmp) (q : priqueue_t)
    (hs : ∀ k : Int, 0 ≤ k → k + 1 < q.size → cmp (q.queue k) (q.queue (k + 1)) ≤ 0)
    (j : Nat) (hj : (j : Int) < q.size) : cmp (q.queue 0) (q.queue j) ≤ 0 := by
  induction j with
  | zero =>
    have h1 := h.consistent (q.queue 0) (q.queue 0)
    have h2 : Int.sign (cmp (q.queue 0) (q.queue 0)) = 0 := by omega
    have h3 := Int.sign_eq_zero_iff_zero.mp h2
    simp only [Nat.cast_zero]
    omega
  | succ n ih =>
    have h1 := ih (by omega)
    have h2 := hs n (by omega) (by omega)
    have h3 := h.transitive _ _ _ h1 h2
    simpa using h3

/-- C8 (poll yields a minimum): for a comparer that is a consistent total preorder and a store
built from `priqueue_init` by `priqueue_offer` calls only, the reference `e` returned by
`priqueue_poll` satisfies `comparer(e, x) <= 0` for every reference `x` that remains in the
store (nothing remains when the store was empty). -/
theorem C8_poll_minimum (cmp : Ptr → Ptr → Int) (hcmp : TotalPreorder cmp) (q0 : priqueue_t)
    (l : List Ptr) :
    ∀ x ∈ seq (priqueue_poll (offer_all (priqueue_init q0 cmp) l)).2,
      cmp (priqueue_poll (offer_all (priqueue_init q0 cmp) l)).1 x ≤ 0 := by
  obtain ⟨h1, _, h3⟩ := offer_all_inv hcmp l (priqueue_init q0 cmp) (le_refl _) rfl
    (fun k hk0 hk1 => by simp [priqueue_init] at hk1; omega)
  have hsz : (offer_all (priqueue_init q0 cmp) l).size = l.length := by
    simpa [priqueue_init] using h1
  intro x hx
  obtain ⟨n, hn⟩ := List.mem_iff_getElem?.mp hx
  by_cases h0 : (offer_all (priqueue_init q0 cmp) l).size = 0
  · rw [poll_empty _ h0] at hn
    have c : (n : Int) < (offer_all (priqueue_init q0 cmp) l).size :=
      ((seq_getElem?_some _ n x).mp hn).1
    omega
  · obtain ⟨p1, p2, _, p4⟩ := poll_nonempty _ h0
    obtain ⟨c1, c2⟩ := (seq_getElem?_some _ n x).mp hn
    rw [p2] at c1
    rw [p4, if_pos (by omega)] at c2
    rw [p1, ← c2]
    have := sorted_front_le hcmp _ h3 (n + 1) (by push_cast; omega)
    simpa using this

/-- Witness of C8 on the scenario of the spec. -/
theorem C8_poll_minimum_witness :
    TotalPreorder compare_int ∧
    ∀ x ∈ seq (priqueue_poll (offer_all (priqueue_init blank compare_int) [1, 2, 3, 4])).2,
      compare_int (priqueue_poll (offer_all (priqueue_init blank compare_int) [1, 2, 3, 4])).1 x
        ≤ 0 :=
  ⟨compare_int_preorder, C8_poll_minimum compare_int compare_int_preorder blank [1, 2, 3, 4]⟩

theorem offer_has (q : priqueue_t) (x : Ptr) (hsize : 0 ≤ q.size) :
    ∃ j : Int, 0 ≤ j ∧ j < (priqueue_offer q x).2.size ∧ (priqueue_offer q x).2.queue j = x := by
  obtain ⟨p, _, h1, _, _, _, h6, _, h8⟩ := offer_closed q x hsize
  refine ⟨p, by omega, by omega, ?_⟩
  rw [h8, if_pos rfl]

theorem offer_keeps (q : priqueue_t) (x a : Ptr) (hsize : 0 ≤ q.size)
    (h : ∃ j : Int, 0 ≤ j ∧ j < q.size ∧ q.queue j = a) :
    ∃ j : Int, 0 ≤ j ∧ j < (priqueue_offer q x).2.size ∧ (priqueue_offer q x).2.queue j = a := by
  obtain ⟨p, _, h1, _, _, _, h6, _, h8⟩ := offer_closed q x hsize
  obtain ⟨j, j0, j1, j2⟩ := h
  by_cases c : j < p
  · refine ⟨j, j0, by omega, ?_⟩
    rw [h8, if_neg (by omega), if_neg (by omega), j2]
  · refine ⟨j + 1, by omega, by omega, ?_⟩
    have e : j + 1 - 1 = j := by omega
    rw [h8, if_neg (by omega), if_pos (by omega), e, j2]

theorem offer_all_keeps (l : List Ptr) (q : priqueue_t) (a : Ptr) (hsize : 0 ≤ q.size)
    (h : ∃ j : Int, 0 ≤ j ∧ j < q.size ∧ q.queue j = a) :
    0 ≤ (offer_all q l).size ∧ (offer_all q l).comparer = q.comparer ∧
      ∃ j : Int, 0 ≤ j ∧ j < (offer_all q l).size ∧ (offer_all q l).queue j = a := by
  induction l generalizing q with
  | nil => exact ⟨hsize, rfl, h⟩
  | cons x t ih =>
    obtain ⟨p, _, _, _, _, _, h6, h7, _⟩ := offer_closed q x hsize
    rw [offer_all_cons]
    obtain ⟨i1, i2, i3⟩ := ih (priqueue_offer q x).2 (by omega) (offer_keeps q x a hsize h)
    exact ⟨i1, by rw [i2, h7], i3⟩

/-- C4, as the code has it (ties go newest first): when `a` is inserted by `priqueue_offer`
and later, after further `priqueue_offer` calls only, a distinct `b` with
`comparer(a, b) == 0` is inserted, the new entry `b` lands at an index `i` that is smaller
than the index of every entry holding `a` (and `a` is still in the store). -/
theorem C4_ties_newest_first (q : priqueue_t) (a b : Ptr) (l : List Ptr) (hsize : 0 ≤ q.size)
    (hne : a ≠ b) (hab : q.comparer a b = 0) :
    ∃ i j : Nat, i < j ∧
      seq (priqueue_offer (offer_all (priqueue_offer q a).2 l) b).2 =
        (seq (offer_all (priqueue_offer q a).2 l)).take i ++ [b] ++
          (seq (offer_all (priqueue_offer q a).2 l)).drop i ∧
      (seq (priqueue_offer (offer_all (priqueue_offer q a).2 l) b).2)[i]? = some b ∧
      (seq (priqueue_offer (offer_all (priqueue_offer q a).2 l) b).2)[j]? = some a ∧
      ∀ k : Nat, (seq (priqueue_offer (offer_all (priqueue_offer q a).2 l) b).2)[k]? = some a →
        i < k := by
  obtain ⟨_, _, _, _, _, _, a6, a7, _⟩ := offer_closed q a hsize
  obtain ⟨s1, s2, j, j0, j1, j2⟩ := offer_all_keeps l (priqueue_offer q a).2 a (by omega)
    (offer_has q a hsize)
  obtain ⟨p, _, h1, h3, _, _, h6, _, h8⟩ := offer_closed (offer_all (priqueue_offer q a).2 l) b s1
  rw [s2, a7] at h3
  have hpj : (p : Int) ≤ j := by
    by_contra c
    have := h3 j j0 (by omega)
    rw [j2, hab] at this
    omega
  refine ⟨p, (j + 1).toNat, by omega, seq_insert _ _ b p h1 h6 h8, ?_, ?_, ?_⟩
  · rw [seq_getElem?_some, h8, if_pos rfl]
    exact ⟨by omega, rfl⟩
  · have e : (((j + 1).toNat : Nat) : Int) = j + 1 := Int.toNat_of_nonneg (by omega)
    have e2 : j + 1 - 1 = j := by omega
    rw [seq_getElem?_some, e, h8, if_neg (by omega), if_pos (by omega), e2]
    exact ⟨by omega, j2⟩
  · intro k hk
    obtain ⟨k1, k2⟩ := (seq_getElem?_some _ k a).mp hk
    rw [h8] at k2
    by_contra c
    by_cases ck : (k : Int) = p
    · rw [if_pos ck] at k2
      exact hne k2.symm
    · rw [if_neg ck, if_neg (by omega)] at k2
      have := h3 k (by omega) (by omega)
      rw [k2, hab] at this
      omega

/-- Witness of C4 on the scenario of the spec: the reference of the first 3 is inserted, then
that of 8, then the reference of the second 3. -/
theorem C4_ties_newest_first_witness :
    (0 ≤ (offer_all (priqueue_init blank compare_int) [1]).size ∧ (2 : Ptr) ≠ 4 ∧
      (offer_all (priqueue_init blank compare_int) [1]).comparer 2 4 = 0) ∧
    ∃ i j : Nat, i < j ∧
      seq (priqueue_offer (offer_all
          (priqueue_offer (offer_all (priqueue_init blank compare_int) [1]) 2).2 [3]) 4).2 =
        (seq (offer_all
          (priqueue_offer (offer_all (priqueue_init blank compare_int) [1]) 2).2 [3])).take i ++
          [4] ++ (seq (offer_all
          (priqueue_offer (offer_all (priqueue_init blank compare_int) [1]) 2).2 [3])).drop i ∧
      (seq (priqueue_offer (offer_all
          (priqueue_offer (offer_all (priqueue_init blank compare_int) [1]) 2).2 [3]) 4).2)[i]? =
        some 4 ∧
      (seq (priqueue_offer (offer_all
          (priqueue_offer (offer_all (priqueue_init blank compare_int) [1]) 2).2 [3]) 4).2)[j]? =
        some 2 ∧
      ∀ k : Nat, (seq (priqueue_offer (offer_all
          (priqueue_offer (offer_all (priqueue_init blank compare_int) [1]) 2).2 [3]) 4).2)[k]? =
        some 2 → i < k :=
  have h1 : 0 ≤ (offer_all (priqueue_init blank compare_int) [1]).size := by
    rw [(offer_all_eval compare_int [1] (priqueue_init blank compare_int) (by decide) rfl).1]
    decide
  have h2 : (offer_all (priqueue_init blank compare_int) [1]).comparer 2 4 = 0 := by
    rw [(offer_all_eval compare_int [1] (priqueue_init blank compare_int) (by decide) rfl).2.1]
    decide
  ⟨⟨h1, by decide, h2⟩, C4_ties_newest_first _ 2 4 [3] h1 (by decide) h2⟩

/-- C4, counterexample to stability: with ascending integer compare, inserting the references
of 5, 3, 8, 3 (addresses 1, 2, 3, 4) leaves the sequence `[4, 2, 1, 3]`: the first-inserted 3
(address 2) is at index 1, the second-inserted 3 (address 4), which compares equal, is at
index 0, so the earlier one is not at the smaller index. -/
theorem C4_stability_counterexample :
    compare_int 2 4 = 0 ∧ (2 : Ptr) ≠ 4 ∧
    seq (offer_all (priqueue_init blank compare_int) [1, 2, 3, 4]) = [4, 2, 1, 3] ∧
    ¬ (List.indexOf 2 (seq (offer_all (priqueue_init blank compare_int) [1, 2, 3, 4])) <
        List.indexOf 4 (seq (offer_all (priqueue_init blank compare_int) [1, 2, 3, 4]))) := by
  rw [scenario_seq]
  decide

theorem single_eval :
    (offer_all (priqueue_init blank compare_int) [2]).size = 1 ∧
      (offer_all (priqueue_init blank compare_int) [2]).comparer = compare_int ∧
      seq (offer_all (priqueue_init blank compare_int) [2]) = [2] := by
  obtain ⟨h1, h2, h3⟩ :=
    offer_all_eval compare_int [2] (priqueue_init blank compare_int) (by decide) rfl
  refine ⟨?_, h2, ?_⟩
  · rw [h1]; decide
  · rw [h3]; decide

theorem pair_slots :
    (offer_all (priqueue_init blank compare_int) [2, 1]).queue 0 = 2 ∧
      (offer_all (priqueue_init blank compare_int) [2, 1]).queue 1 = 1 := by
  have h0 := (seq_getElem?_some (offer_all (priqueue_init blank compare_int) [2, 1]) 0 2).mp
    (by rw [pair_seq]; rfl)
  have h1 := (seq_getElem?_some (offer_all (priqueue_init blank compare_int) [2, 1]) 1 1).mp
    (by rw [pair_seq]; rfl)
  exact ⟨by simpa using h0.2, by simpa using h1.2⟩

theorem triple_eval :
    (offer_all (priqueue_init blank compare_int) [2, 1, 3]).size = 3 ∧
      seq (offer_all (priqueue_init blank compare_int) [2, 1, 3]) = [2, 1, 3] ∧
      (offer_all (priqueue_init blank compare_int) [2, 1, 3]).queue 2 = 3 := by
  obtain ⟨h1, _, h3⟩ :=
    offer_all_eval compare_int [2, 1, 3] (priqueue_init blank compare_int) (by decide) rfl
  have hs : seq (offer_all (priqueue_init blank compare_int) [2, 1, 3]) = [2, 1, 3] := by
    rw [h3]; decide
  have h2 := (seq_getElem?_some (offer_all (priqueue_init blank compare_int) [2, 1, 3]) 2 3).mp
    (by rw [hs]; rfl)
  refine ⟨?_, hs, by simpa using h2.2⟩
  rw [h1]; decide

/-- C3, the code at the failing input: on the store holding only the reference of 3
(address 2), `priqueue_offer` of the reference of 5 (address 1) appends it, so that it sits at
index 1 of the sequence `[2, 1]`, yet the call returns 0, the index of the other entry. -/
theorem C3_offer_append_returns_zero :
    seq (offer_all (priqueue_init blank compare_int) [2]) = [2] ∧
    (priqueue_offer (offer_all (priqueue_init blank compare_int) [2]) 1).1 = 0 ∧
    seq (priqueue_offer (offer_all (priqueue_init blank compare_int) [2]) 1).2 = [2, 1] ∧
    (seq (priqueue_offer (offer_all (priqueue_init blank compare_int) [2]) 1).2)[0]? ≠ some 1 := by
  obtain ⟨h1, h2, h3⟩ := single_eval
  have hr : (priqueue_offer (offer_all (priqueue_init blank compare_int) [2]) 1).1 = 0 := by
    rw [offer_ret _ _ (by rw [h1]; decide), h1, h2, h3]
    decide
  have hs : seq (priqueue_offer (offer_all (priqueue_init blank compare_int) [2]) 1).2 =
      [2, 1] := pair_seq
  refine ⟨h3, hr, hs, ?_⟩
  rw [hs]
  decide

/-- C5, the code at the failing input: on the store with sequence `[2, 1]` (the references of
3 and 5) `priqueue_peek` returns the entry of the last slot, address 1, not the front entry,
address 2; the store is left as it is. -/
theorem C5_peek_returns_last :
    seq (offer_all (priqueue_init blank compare_int) [2, 1]) = [2, 1] ∧
    priqueue_peek (offer_all (priqueue_init blank compare_int) [2, 1]) =
      (1, offer_all (priqueue_init blank compare_int) [2, 1]) ∧
    (offer_all (priqueue_init blank compare_int) [2, 1]).queue 0 = 2 := by
  refine ⟨pair_seq, ?_, pair_slots.1⟩
  unfold priqueue_peek
  rw [pair_size, if_neg (by decide)]
  have e : (2 : Int) - 1 = 1 := by decide
  rw [e, pair_slots.2]

/-- C6, the code at the failing input: on the store with sequence `[2, 1]`, `priqueue_peek`
returns address 1 and the `priqueue_poll` that follows returns address 2 (and reduces the size
from 2 to 1). -/
theorem C6_peek_poll_differ :
    (priqueue_peek (offer_all (priqueue_init blank compare_int) [2, 1])).1 = 1 ∧
    (priqueue_poll (priqueue_peek (offer_all (priqueue_init blank compare_int) [2, 1])).2).1 = 2 ∧
    (priqueue_poll (priqueue_peek (offer_all (priqueue_init blank compare_int) [2, 1])).2).2.size
      = 1 := by
  have hp : priqueue_peek (offer_all (priqueue_init blank compare_int) [2, 1]) =
      (1, offer_all (priqueue_init blank compare_int) [2, 1]) := by
    unfold priqueue_peek
    rw [pair_size, if_neg (by decide)]
    have e : (2 : Int) - 1 = 1 := by decide
    rw [e, pair_slots.2]
  obtain ⟨p1, p2, _, _⟩ := poll_nonempty (offer_all (priqueue_init blank compare_int) [2, 1])
    (by rw [pair_size]; decide)
  rw [hp]
  refine ⟨rfl, ?_, ?_⟩
  · rw [p1, pair_slots.1]
  · rw [p2, pair_size]; decide

/-- C10, the code at the failing input: build the store `[2, 1, 3]` (the references of 3, 5,
8) and poll once. The store then has size 2 and sequence `[1, 3]`, and slot 2 still holds
address 3 from before the removal. `priqueue_at` with index 2, which is out of range, returns
that stale reference and not `NULL`. -/
theorem C10_at_out_of_range_not_null :
    (priqueue_poll (offer_all (priqueue_init blank compare_int) [2, 1, 3])).2.size = 2 ∧
    seq (priqueue_poll (offer_all (priqueue_init blank compare_int) [2, 1, 3])).2 = [1, 3] ∧
    (priqueue_at (priqueue_poll (offer_all (priqueue_init blank compare_int) [2, 1, 3])).2 2).1
      = 3 ∧
    (3 : Ptr) ≠ NULL := by
  obtain ⟨h1, h2, h3⟩ := triple_eval
  obtain ⟨_, p2, _, p4⟩ := poll_nonempty (offer_all (priqueue_init blank compare_int) [2, 1, 3])
    (by rw [h1]; decide)
  have hsz : (priqueue_poll (offer_all (priqueue_init blank compare_int) [2, 1, 3])).2.size
      = 2 := by rw [p2, h1]; decide
  refine ⟨hsz, ?_, ?_, by decide⟩
  · obtain ⟨_, c2, _, _⟩ := (seq_poll_tail _ 2 [1, 3] h2)
    exact c2
  · unfold priqueue_at
    rw [hsz, if_neg (by decide)]
    show (priqueue_poll (offer_all (priqueue_init blank compare_int) [2, 1, 3])).2.queue 2 = 3
    rw [p4, h1, if_neg (by decide), h3]

theorem seq_drop (q : priqueue_t) (i : Nat) (h : (i : Int) < q.size) :
    (seq q).drop i = q.queue i :: (seq q).drop (i + 1) := by
  have hlen : i < (seq q).length := by rw [seq_length]; omega
  rw [List.drop_eq_getElem_cons hlen]
  congr 1
  simp [seq]

theorem seq_erase (q r : priqueue_t) (i : Nat) (hi : (i : Int) < q.size)
    (hs : r.size = q.size - 1)
    (hq : ∀ k : Int, r.queue k =
      if (i : Int) ≤ k ∧ k < q.size - 1 then q.queue (k + 1) else q.queue k) :
    seq r = (seq q).eraseIdx i := by
  apply List.ext_getElem?
  intro n
  rw [List.getElem?_eraseIdx, seq_getElem?, hs, hq]
  by_cases h1 : n < i
  · have a1 : (n : Int) < q.size - 1 := by omega
    have a2 : ¬ ((i : Int) ≤ n ∧ (n : Int) < q.size - 1) := by omega
    have a3 : (n : Int) < q.size := by omega
    rw [if_pos a1, if_neg a2, if_pos h1, seq_getElem?, if_pos a3]
  · rw [if_neg h1, seq_getElem?]
    have a : ((n + 1 : Nat) : Int) = (n : Int) + 1 := by omega
    by_cases h2 : (n : Int) < q.size - 1
    · have a2 : (i : Int) ≤ n ∧ (n : Int) < q.size - 1 := by omega
      have a3 : ((n + 1 : Nat) : Int) < q.size := by omega
      rw [if_pos h2, if_pos a2, if_pos a3, a]
    · have a3 : ¬ ((n + 1 : Nat) : Int) < q.size := by omega
      rw [if_neg h2, if_neg a3]

/-- Closed form of the scan of `priqueue_remove` entered at `i`: the entries before `i` stay,
those from `i` on that are identical to `ptr` are deleted and counted. -/
theorem remove_loop_spec (ptr : Ptr) (n : Nat) :
    ∀ (q : priqueue_t) (i : Nat) (count : Int), (q.size - (i : Int)).toNat = n →
      seq (remove_loop q ptr i count).2 =
        (seq q).take i ++ ((seq q).drop i).filter (fun e => decide (e ≠ ptr)) ∧
      (remove_loop q ptr i count).1 = count + (((seq q).drop i).count ptr : Nat) ∧
      (remove_loop q ptr i count).2.size = q.size - (((seq q).drop i).count ptr : Nat) ∧
      (remove_loop q ptr i count).2.comparer = q.comparer := by
  induction n with
  | zero =>
    intro q i count h
    have hs : ¬ (i : Int) < q.size := by omega
    have hd : (seq q).drop i = [] := List.drop_eq_nil_of_le (by rw [seq_length]; omega)
    have ht : (seq q).take i = seq q := List.take_of_length_le (by rw [seq_length]; omega)
    rw [remove_loop, if_neg hs, hd, ht]
    simp
  | succ n ih =>
    intro q i count h
    have hs : (i : Int) < q.size := by omega
    have hd := seq_drop q i hs
    by_cases hm : q.queue i = ptr
    · have e : (i : Int) - 1 + 1 = i := by omega
      rw [remove_loop, if_pos hs, if_pos hm, e]
      have hq1 : seq { q with queue := shift_down q.queue q.size i, size := q.size - 1 } =
          (seq q).eraseIdx i :=
        seq_erase q _ i hs rfl (fun k => shift_down_apply _ _ _ _)
      obtain ⟨i1, i2, i3, i4⟩ :=
        ih { q with queue := shift_down q.queue q.size i, size := q.size - 1 } i (count + 1)
          (by show (q.size - 1 - (i : Int)).toNat = n; omega)
      have hlen : i ≤ (seq q).length := by rw [seq_length]; omega
      have ht : ((seq q).eraseIdx i).take i = (seq q).take i := by
        rw [List.eraseIdx_eq_take_drop_succ]
        exact List.take_left' (by simp [hlen])
      have hdr : ((seq q).eraseIdx i).drop i = (seq q).drop (i + 1) := by
        rw [List.eraseIdx_eq_take_drop_succ]
        exact List.drop_left' (by simp [hlen])
      rw [hq1, ht, hdr] at i1
      rw [hq1, hdr] at i2 i3
      rw [hd, hm]
      refine ⟨?_, ?_, ?_, i4⟩
      · rw [i1]; simp
      · rw [i2]; simp; ring
      · rw [i3]; show q.size - 1 - _ = _; simp; ring
    · rw [remove_loop, if_pos hs, if_neg hm]
      obtain ⟨i1, i2, i3, i4⟩ := ih q (i + 1) count (by omega)
      have e : (((i + 1 : Nat)) : Int) = (i : Int) + 1 := by omega
      rw [e] at i1 i2 i3
      have ht : (seq q).take (i + 1) = (seq q).take i ++ [q.queue i] := by
        rw [List.take_succ, (seq_getElem?_some q i _).mpr ⟨hs, rfl⟩]; rfl
      have hc : List.count ptr (q.queue i :: (seq q).drop (i + 1)) =
          List.count ptr ((seq q).drop (i + 1)) := by
        rw [List.count_cons]; simp [hm]
      refine ⟨?_, ?_, ?_, i4⟩
      · rw [i1, ht, hd]; simp [hm]
      · rw [i2, hd, hc]
      · rw [i3, hd, hc]

/-- The scan of `priqueue_remove` does not depend on the comparer of the store. -/
theorem remove_loop_comparer (ptr : Ptr) (c : Ptr → Ptr → Int) (n : Nat) :
    ∀ (q : priqueue_t) (i count : Int), (q.size - i).toNat = n →
      remove_loop { q with comparer := c } ptr i count =
        ((remove_loop q ptr i count).1, { (remove_loop q ptr i count).2 with comparer := c }) := by
  induction n with
  | zero =>
    intro q i count h
    have hs : ¬ i < q.size := by omega
    have e1 : remove_loop q ptr i count = (count, q) := by rw [remove_loop, if_neg hs]
    have e2 : remove_loop { q with comparer := c } ptr i count =
        (count, { q with comparer := c }) := by
      rw [remove_loop]; exact if_neg hs
    rw [e1, e2]
  | succ n ih =>
    intro q i count h
    have hs : i < q.size := by omega
    by_cases hm : q.queue i = ptr
    · have e1 : remove_loop q ptr i count =
          remove_loop { q with queue := shift_down q.queue q.size i, size := q.size - 1 } ptr
            (i - 1 + 1) (count + 1) := by
        rw [remove_loop, if_pos hs, if_pos hm]
      have e2 : remove_loop { q with comparer := c } ptr i count =
          remove_loop ⟨shift_down q.queue q.size i, q.size - 1, c⟩ ptr
            (i - 1 + 1) (count + 1) := by
        rw [remove_loop]; exact (if_pos hs).trans (if_pos hm)
      rw [e1, e2]
      exact ih { q with queue := shift_down q.queue q.size i, size := q.size - 1 }
        (i - 1 + 1) (count + 1) (by show (q.size - 1 - (i - 1 + 1)).toNat = n; omega)
    · have e1 : remove_loop q ptr i count = remove_loop q ptr (i + 1) count := by
        rw [remove_loop, if_pos hs, if_neg hm]
      have e2 : remove_loop { q with comparer := c } ptr i count =
          remove_loop { q with comparer := c } ptr (i + 1) count := by
        rw [remove_loop]; exact (if_pos hs).trans (if_neg hm)
      rw [e1, e2]
      exact ih q (i + 1) count (by omega)

/-- C11 (remove by value): `priqueue_remove(q, p)` leaves the sequence with every entry
identical to `p` deleted and the other entries in their order, returns the number of entries
identical to `p`, reduces the size by that number, and does not use the comparer: the returned
count, the slots and the size are the same whatever comparer the store has. -/
theorem C11_remove_by_value (q : priqueue_t) (p : Ptr) :
    seq (priqueue_remove q p).2 = (seq q).filter (fun e => decide (e ≠ p)) ∧
    (priqueue_remove q p).1 = ((seq q).count p : Nat) ∧
    (priqueue_remove q p).2.comparer = q.comparer ∧
    ∀ c : Ptr → Ptr → Int,
      (priqueue_remove { q with comparer := c } p).1 = (priqueue_remove q p).1 ∧
      (priqueue_remove { q with comparer := c } p).2.queue = (priqueue_remove q p).2.queue ∧
      (priqueue_remove { q with comparer := c } p).2.size = (priqueue_remove q p).2.size := by
  obtain ⟨h1, h2, _, h4⟩ := remove_loop_spec p _ q 0 0 rfl
  refine ⟨?_, ?_, h4, ?_⟩
  · simpa using h1
  · simpa using h2
  · intro c
    have := remove_loop_comparer p c _ q 0 0 rfl
    unfold priqueue_remove
    rw [this]
    exact ⟨rfl, rfl, rfl⟩

theorem scenario_tied_seq :
    seq (offer_all (priqueue_init blank compare_int) [1, 4, 2, 3]) = [2, 4, 1, 3] := by
  rw [(offer_all_eval compare_int [1, 4, 2, 3] (priqueue_init blank compare_int)
      (by decide) rfl).2.2]
  decide

/-- C11 on the scenario of the spec: on the sequence `[3a, 3b, 5, 8]` (addresses 2, 4, 1, 3)
removing the reference `3b` leaves `[3a, 5, 8]` and returns 1. -/
theorem C11_remove_by_value_witness :
    seq (offer_all (priqueue_init blank compare_int) [1, 4, 2, 3]) = [2, 4, 1, 3] ∧
    seq (priqueue_remove (offer_all (priqueue_init blank compare_int) [1, 4, 2, 3]) 4).2 =
      [2, 1, 3] ∧
    (priqueue_remove (offer_all (priqueue_init blank compare_int) [1, 4, 2, 3]) 4).1 = 1 := by
  obtain ⟨h1, h2, _, _⟩ :=
    C11_remove_by_value (offer_all (priqueue_init blank compare_int) [1, 4, 2, 3]) 4
  rw [scenario_tied_seq] at h1 h2
  exact ⟨scenario_tied_seq, h1, h2⟩

/-- Closed form of the scan of `priqueue_remove_at` entered at `i <= index < size`: it stops
at `index`, returns that entry and compacts the slots behind it. -/
theorem remove_at_loop_hit (q : priqueue_t) (index : Int) (hlt : index < q.size) (n : Nat) :
    ∀ i : Int, i ≤ index → (index - i).toNat = n →
      remove_at_loop q index i =
        (q.queue index,
          { q with queue := shift_down q.queue q.size index, size := q.size - 1 }) := by
  induction n with
  | zero =>
    intro i h1 h2
    have e : i = index := by omega
    subst e
    rw [remove_at_loop, if_pos hlt, if_pos rfl]
  | succ n ih =>
    intro i h1 h2
    rw [remove_at_loop, if_pos (by omega), if_neg (by omega)]
    exact ih (i + 1) (by omega) (by omega)

/-- The scan of `priqueue_remove_at` entered at `i` finds nothing when `index` is below `i` or
not below `size`. -/
theorem remove_at_loop_miss (q : priqueue_t) (index : Int) (n : Nat) :
    ∀ i : Int, (index < i ∨ q.size ≤ index) → (q.size - i).toNat = n →
      remove_at_loop q index i = (NULL, q) := by
  induction n with
  | zero =>
    intro i _ h2
    rw [remove_at_loop, if_neg (by omega)]
  | succ n ih =>
    intro i h1 h2
    rw [remove_at_loop, if_pos (by omega), if_neg (by omega)]
    exact ih (i + 1) (by omega) (by omega)

theorem remove_at_in_range (q : priqueue_t) (i : Int) (h0 : 0 ≤ i) (h1 : i < q.size) :
    priqueue_remove_at q i =
      (q.queue i, { q with queue := shift_down q.queue q.size i, size := q.size - 1 }) :=
  remove_at_loop_hit q i h1 _ 0 h0 rfl

theorem remove_at_out_of_range (q : priqueue_t) (i : Int) (h : i < 0 ∨ q.size ≤ i) :
    priqueue_remove_at q i = (NULL, q) :=
  remove_at_loop_miss q i _ 0 h rfl

theorem seq_remove_at (q : priqueue_t) (i : Int) (h0 : 0 ≤ i) (h1 : i < q.size) :
    seq (priqueue_remove_at q i).2 = (seq q).eraseIdx i.toNat := by
  rw [remove_at_in_range q i h0 h1]
  have e : ((i.toNat : Nat) : Int) = i := Int.toNat_of_nonneg h0
  refine seq_erase q _ i.toNat (by omega) rfl (fun k => ?_)
  rw [e]
  exact shift_down_apply _ _ _ _

/-- C12 (remove at index, in range): for `0 <= i < size`, `priqueue_remove_at(q, i)` returns
the entry `e_i` and leaves `e_0..e_{i-1}, e_{i+1}..e_{n-1}` in that order, with size `n - 1`. -/
theorem C12_remove_at_in_range (q : priqueue_t) (i : Int) (h0 : 0 ≤ i) (h1 : i < q.size) :
    (seq q)[i.toNat]? = some (priqueue_remove_at q i).1 ∧
    seq (priqueue_remove_at q i).2 = (seq q).take i.toNat ++ (seq q).drop (i.toNat + 1) ∧
    (priqueue_remove_at q i).2.size = q.size - 1 ∧
    (priqueue_remove_at q i).2.comparer = q.comparer := by
  have e : ((i.toNat : Nat) : Int) = i := Int.toNat_of_nonneg h0
  refine ⟨?_, ?_, ?_, ?_⟩
  · rw [remove_at_in_range q i h0 h1, seq_getElem?_some, e]
    exact ⟨h1, rfl⟩
  · rw [seq_remove_at q i h0 h1, List.eraseIdx_eq_take_drop_succ]
  · rw [remove_at_in_range q i h0 h1]
  · rw [remove_at_in_range q i h0 h1]

theorem tail_pair_eval :
    (offer_all (priqueue_init blank compare_int) [1, 3]).size = 2 ∧
      seq (offer_all (priqueue_init blank compare_int) [1, 3]) = [1, 3] := by
  obtain ⟨h1, _, h3⟩ :=
    offer_all_eval compare_int [1, 3] (priqueue_init blank compare_int) (by decide) rfl
  exact ⟨by rw [h1]; decide, by rw [h3]; decide⟩

/-- C12 on the scenario of the spec: `RemoveAt(0)` on `[5, 8]` (addresses 1, 3) returns the
reference of 5 and leaves `[8]`. -/
theorem C12_remove_at_in_range_witness :
    ((0 : Int) ≤ 0 ∧ (0 : Int) < (offer_all (priqueue_init blank compare_int) [1, 3]).size) ∧
    seq (offer_all (priqueue_init blank compare_int) [1, 3]) = [1, 3] ∧
    (priqueue_remove_at (offer_all (priqueue_init blank compare_int) [1, 3]) 0).1 = 1 ∧
    seq (priqueue_remove_at (offer_all (priqueue_init blank compare_int) [1, 3]) 0).2 = [3] ∧
    (priqueue_remove_at (offer_all (priqueue_init blank compare_int) [1, 3]) 0).2.size = 1 := by
  have h : (0 : Int) < (offer_all (priqueue_init blank compare_int) [1, 3]).size := by
    rw [tail_pair_eval.1]; decide
  obtain ⟨c1, c2, c3, _⟩ :=
    C12_remove_at_in_range (offer_all (priqueue_init blank compare_int) [1, 3]) 0 (le_refl _) h
  rw [tail_pair_eval.2] at c1 c2
  rw [tail_pair_eval.1] at c3
  refine ⟨⟨le_refl _, h⟩, tail_pair_eval.2, ?_, c2, by rw [c3]; decide⟩
  have c4 : some (1 : Ptr) =
      some (priqueue_remove_at (offer_all (priqueue_init blank compare_int) [1, 3]) 0).1 := c1
  exact (Option.some.inj c4).symm

/-- C13 (remove at index, out of range): for `i < 0` or `i >= size`,
`priqueue_remove_at(q, i)` returns `NULL` and leaves the store, so its sequence and size, as
it is. -/
theorem C13_remove_at_out_of_range (q : priqueue_t) (i : Int) (h : i < 0 ∨ q.size ≤ i) :
    (priqueue_remove_at q i).1 = NULL ∧ (priqueue_remove_at q i).2 = q ∧
    seq (priqueue_remove_at q i).2 = seq q ∧ (priqueue_remove_at q i).2.size = q.size := by
  rw [remove_at_out_of_range q i h]
  exact ⟨rfl, rfl, rfl, rfl⟩

/-- C13 at index 5 and at index -1 of the store `[5, 8]`. -/
theorem C13_remove_at_out_of_range_witness :
    (((5 : Int) < 0 ∨ (offer_all (priqueue_init blank compare_int) [1, 3]).size ≤ 5) ∧
      (priqueue_remove_at (offer_all (priqueue_init blank compare_int) [1, 3]) 5).1 = NULL ∧
      (priqueue_remove_at (offer_all (priqueue_init blank compare_int) [1, 3]) 5).2 =
        offer_all (priqueue_init blank compare_int) [1, 3] ∧
      seq (priqueue_remove_at (offer_all (priqueue_init blank compare_int) [1, 3]) 5).2 =
        seq (offer_all (priqueue_init blank compare_int) [1, 3]) ∧
      (priqueue_remove_at (offer_all (priqueue_init blank compare_int) [1, 3]) 5).2.size =
        (offer_all (priqueue_init blank compare_int) [1, 3]).size) ∧
    (priqueue_remove_at (offer_all (priqueue_init blank compare_int) [1, 3]) (-1)).1 = NULL :=
  have h : (5 : Int) < 0 ∨ (offer_all (priqueue_init blank compare_int) [1, 3]).size ≤ 5 :=
    Or.inr (by rw [tail_pair_eval.1]; decide)
  ⟨⟨h, C13_remove_at_out_of_range _ 5 h⟩,
    (C13_remove_at_out_of_range _ (-1) (Or.inl (by decide))).1⟩

theorem remove_of_empty (q : priqueue_t) (p : Ptr) (h : q.size ≤ 0) :
    priqueue_remove q p = (0, q) := by
  unfold priqueue_remove
  rw [remove_loop, if_neg (by omega)]

/-- C16 (construction yields an empty store): after `priqueue_init(q, c)` the store has size 0,
an empty sequence and comparer `c`; `priqueue_size` returns 0, `priqueue_peek` and
`priqueue_poll` return `NULL`, and `priqueue_remove` of any reference returns 0. -/
theorem C16_init_empty (q0 : priqueue_t) (c : Ptr → Ptr → Int) :
    (priqueue_init q0 c).size = 0 ∧ (priqueue_init q0 c).comparer = c ∧
    seq (priqueue_init q0 c) = [] ∧
    (priqueue_size (priqueue_init q0 c)).1 = 0 ∧
    (priqueue_peek (priqueue_init q0 c)).1 = NULL ∧
    (priqueue_poll (priqueue_init q0 c)).1 = NULL ∧
    ∀ p : Ptr, (priqueue_remove (priqueue_init q0 c) p).1 = 0 := by
  refine ⟨rfl, rfl, rfl, rfl, rfl, ?_, ?_⟩
  · rw [poll_empty _ rfl]
  · intro p
    rw [remove_of_empty _ p (le_refl _)]

/-- C17 (poll is removal at index 0): on every store with `size >= 0`, `priqueue_poll(q)` and
`priqueue_remove_at(q, 0)` return the same reference and leave the same store, so the same
sequence and size. -/
theorem C17_poll_is_remove_at_zero (q : priqueue_t) (h : 0 ≤ q.size) :
    priqueue_poll q = priqueue_remove_at q 0 ∧
    (priqueue_poll q).1 = (priqueue_remove_at q 0).1 ∧
    seq (priqueue_poll q).2 = seq (priqueue_remove_at q 0).2 ∧
    (priqueue_poll q).2.size = (priqueue_remove_at q 0).2.size := by
  have e : priqueue_poll q = priqueue_remove_at q 0 := by
    by_cases h0 : q.size = 0
    · rw [poll_empty q h0, remove_at_out_of_range q 0 (Or.inr (by omega))]
    · rw [remove_at_in_range q 0 (le_refl _) (by omega)]
      unfold priqueue_poll
      rw [if_neg h0]
  rw [e]
  exact ⟨rfl, rfl, rfl, rfl⟩

/-- C17 on the store `[5, 8]` and on the freshly initialised store. -/
theorem C17_poll_is_remove_at_zero_witness :
    (0 ≤ (offer_all (priqueue_init blank compare_int) [1, 3]).size ∧
      priqueue_poll (offer_all (priqueue_init blank compare_int) [1, 3]) =
        priqueue_remove_at (offer_all (priqueue_init blank compare_int) [1, 3]) 0) ∧
    (0 ≤ (priqueue_init blank compare_int).size ∧
      priqueue_poll (priqueue_init blank compare_int) =
        priqueue_remove_at (priqueue_init blank compare_int) 0) :=
  have h : 0 ≤ (offer_all (priqueue_init blank compare_int) [1, 3]).size := by
    rw [tail_pair_eval.1]; decide
  ⟨⟨h, (C17_poll_is_remove_at_zero _ h).1⟩,
    ⟨le_refl _, (C17_poll_is_remove_at_zero (priqueue_init blank compare_int) (le_refl _)).1⟩⟩

theorem seq_nil (q : priqueue_t) (h : q.size ≤ 0) : seq q = [] := by
  have e : q.size.toNat = 0 := by omega
  unfold seq
  rw [e]
  rfl

theorem poll_comparer (q : priqueue_t) : (priqueue_poll q).2.comparer = q.comparer := by
  unfold priqueue_poll
  by_cases h : q.size = 0
  · rw [if_pos h]
  · rw [if_neg h]

theorem seq_poll (q : priqueue_t) : seq (priqueue_poll q).2 = (seq q).tail := by
  by_cases h0 : q.size = 0
  · rw [poll_empty q h0, seq_nil q (by omega)]
    rfl
  · by_cases h1 : 0 < q.size
    · obtain ⟨_, p2, _, p4⟩ := poll_nonempty q h0
      rw [← List.eraseIdx_zero]
      exact seq_erase q _ 0 (by simpa using h1) p2 (fun k => by rw [p4 k]; simp)
    · obtain ⟨_, p2, _, _⟩ := poll_nonempty q h0
      rw [seq_nil q (by omega), seq_nil _ (by omega)]
      rfl

theorem adjacent_cons (cmp : Ptr → Ptr → Int) (a b : Ptr) (t : List Ptr) :
    adjacent_sorted cmp (a :: b :: t) ↔ cmp a b ≤ 0 ∧ adjacent_sorted cmp (b :: t) := by
  constructor
  · intro h
    refine ⟨h 0 a b (by simp) (by simp), ?_⟩
    intro i x y hx hy
    exact h (i + 1) x y (by simpa using hx) (by simpa using hy)
  · rintro ⟨h1, h2⟩ i x y hx hy
    cases i with
    | zero =>
      simp at hx hy
      rw [← hx, ← hy]; exact h1
    | succ j =>
      exact h2 j x y (by simpa using hx) (by simpa using hy)

theorem adjacent_iff_chain (cmp : Ptr → Ptr → Int) (s : List Ptr) :
    adjacent_sorted cmp s ↔ List.Chain' (fun a b => cmp a b ≤ 0) s := by
  induction s with
  | nil => exact ⟨fun _ => List.chain'_nil, fun _ i a b ha _ => by simp at ha⟩
  | cons a t ih =>
    cases t with
    | nil =>
      exact ⟨fun _ => List.chain'_singleton a, fun _ i x y _ hy => by simp at hy⟩
    | cons b u =>
      rw [adjacent_cons, List.chain'_cons, ih]

theorem adjacent_sublist (cmp : Ptr → Ptr → Int)
    (htrans : ∀ a b c, cmp a b ≤ 0 → cmp b c ≤ 0 → cmp a c ≤ 0) (s t : List Ptr)
    (hs : adjacent_sorted cmp s) (hsub : List.Sublist t s) : adjacent_sorted cmp t := by
  haveI : IsTrans Ptr (fun a b => cmp a b ≤ 0) := ⟨htrans⟩
  rw [adjacent_iff_chain] at hs ⊢
  exact hs.sublist hsub

theorem seq_remove (q : priqueue_t) (p : Ptr) :
    seq (priqueue_remove q p).2 = (seq q).filter (fun e => decide (e ≠ p)) ∧
      (priqueue_remove q p).2.comparer = q.comparer ∧
      (priqueue_remove q p).2.size = q.size - (priqueue_remove q p).1 := by
  obtain ⟨h1, h2, h3, h4⟩ := remove_loop_spec p _ q 0 0 rfl
  have h2b : (remove_loop q p 0 0).1 = ((seq q).count p : Nat) := by simpa using h2
  have h3b : (remove_loop q p 0 0).2.size = q.size - ((seq q).count p : Nat) := by
    simpa using h3
  refine ⟨by simpa using h1, h4, ?_⟩
  unfold priqueue_remove
  rw [h3b, h2b]

theorem remove_at_sublist (q : priqueue_t) (i : Int) :
    List.Sublist (seq (priqueue_remove_at q i).2) (seq q) ∧
      (priqueue_remove_at q i).2.comparer = q.comparer := by
  by_cases h : 0 ≤ i ∧ i < q.size
  · rw [seq_remove_at q i h.1 h.2, remove_at_in_range q i h.1 h.2]
    exact ⟨List.eraseIdx_sublist _ _, rfl⟩
  · rw [remove_at_out_of_range q i (by omega)]
    exact ⟨List.Sublist.refl _, rfl⟩

/-- C15 (removal preserves sortedness): when the comparer of a store is transitive and every
adjacent pair of its sequence satisfies `comparer(e_i, e_{i+1}) <= 0`, the same holds for the
sequence left by `priqueue_remove_at` (any index), by `priqueue_poll` and by `priqueue_remove`
(any reference). -/
theorem C15_removal_keeps_sorted (q : priqueue_t)
    (htrans : ∀ a b c, q.comparer a b ≤ 0 → q.comparer b c ≤ 0 → q.comparer a c ≤ 0)
    (hs : adjacent_sorted q.comparer (seq q)) :
    (∀ i : Int, adjacent_sorted (priqueue_remove_at q i).2.comparer
      (seq (priqueue_remove_at q i).2)) ∧
    adjacent_sorted (priqueue_poll q).2.comparer (seq (priqueue_poll q).2) ∧
    (∀ p : Ptr, adjacent_sorted (priqueue_remove q p).2.comparer
      (seq (priqueue_remove q p).2)) := by
  refine ⟨?_, ?_, ?_⟩
  · intro i
    obtain ⟨h1, h2⟩ := remove_at_sublist q i
    rw [h2]
    exact adjacent_sublist _ htrans _ _ hs h1
  · rw [poll_comparer, seq_poll]
    exact adjacent_sublist _ htrans _ _ hs (List.tail_sublist _)
  · intro p
    obtain ⟨h1, h2, _⟩ := seq_remove q p
    rw [h1, h2]
    exact adjacent_sublist _ htrans _ _ hs (List.filter_sublist _)

theorem scenario_comparer :
    (offer_all (priqueue_init blank compare_int) [1, 2, 3, 4]).comparer = compare_int :=
  (offer_all_eval compare_int [1, 2, 3, 4] (priqueue_init blank compare_int) (by decide) rfl).2.1

/-- C15 on the scenario of the spec: the store built from 5, 3, 8, 3 stays sorted under every
removal. -/
theorem C15_removal_keeps_sorted_witness :
    ((∀ a b c,
        (offer_all (priqueue_init blank compare_int) [1, 2, 3, 4]).comparer a b ≤ 0 →
        (offer_all (priqueue_init blank compare_int) [1, 2, 3, 4]).comparer b c ≤ 0 →
        (offer_all (priqueue_init blank compare_int) [1, 2, 3, 4]).comparer a c ≤ 0) ∧
      adjacent_sorted (offer_all (priqueue_init blank compare_int) [1, 2, 3, 4]).comparer
        (seq (offer_all (priqueue_init blank compare_int) [1, 2, 3, 4]))) ∧
    ((∀ i : Int,
        adjacent_sorted
          (priqueue_remove_at (offer_all (priqueue_init blank compare_int) [1, 2, 3, 4])
            i).2.comparer
          (seq (priqueue_remove_at (offer_all (priqueue_init blank compare_int) [1, 2, 3, 4])
            i).2)) ∧
      adjacent_sorted
        (priqueue_poll (offer_all (priqueue_init blank compare_int) [1, 2, 3, 4])).2.comparer
        (seq (priqueue_poll (offer_all (priqueue_init blank compare_int) [1, 2, 3, 4])).2) ∧
      (∀ p : Ptr,
        adjacent_sorted
          (priqueue_remove (offer_all (priqueue_init blank compare_int) [1, 2, 3, 4])
            p).2.comparer
          (seq (priqueue_remove (offer_all (priqueue_init blank compare_int) [1, 2, 3, 4])
            p).2))) :=
  have h1 : ∀ a b c,
      (offer_all (priqueue_init blank compare_int) [1, 2, 3, 4]).comparer a b ≤ 0 →
      (offer_all (priqueue_init blank compare_int) [1, 2, 3, 4]).comparer b c ≤ 0 →
      (offer_all (priqueue_init blank compare_int) [1, 2, 3, 4]).comparer a c ≤ 0 := by
    rw [scenario_comparer]
    exact compare_int_preorder.transitive
  have h2 : adjacent_sorted (offer_all (priqueue_init blank compare_int) [1, 2, 3, 4]).comparer
      (seq (offer_all (priqueue_init blank compare_int) [1, 2, 3, 4])) := by
    rw [scenario_comparer, scenario_seq, adjacent_cons, adjacent_cons, adjacent_cons]
    exact ⟨by decide, by decide, by decide,
      (adjacent_iff_chain _ _).mpr (List.chain'_singleton _)⟩
  ⟨⟨h1, h2⟩, C15_removal_keeps_sorted _ h1 h2⟩

theorem offer_loop_size (q : priqueue_t) (ptr : Ptr) (n : Nat) :
    ∀ i : Int, (q.size - i).toNat = n → (offer_loop q ptr i).2.size = q.size + 1 := by
  induction n with
  | zero =>
    intro i h
    rw [offer_loop, if_neg (by omega)]
  | succ n ih =>
    intro i h
    rw [offer_loop, if_pos (by omega)]
    by_cases hc : q.comparer (q.queue i) ptr ≥ 0
    · rw [if_pos hc]
    · rw [if_neg hc]
      exact ih (i + 1) (by omega)

theorem offer_size (q : priqueue_t) (p : Ptr) : (priqueue_offer q p).2.size = q.size + 1 :=
  offer_loop_size q p _ 0 rfl

theorem peek_store (q : priqueue_t) : (priqueue_peek q).2 = q := by
  unfold priqueue_peek
  by_cases h : q.size = 0
  · rw [if_pos h]
  · rw [if_neg h]

theorem at_store (q : priqueue_t) (i : Int) : (priqueue_at q i).2 = q := by
  unfold priqueue_at
  by_cases h : q.size - 1 < i ∧ 0 > i
  · rw [if_pos h]
  · rw [if_neg h]

theorem poll_returns_entry (q : priqueue_t) (h : (priqueue_poll q).1 ≠ NULL) : q.size ≠ 0 := by
  intro h0
  rw [poll_empty q h0] at h
  exact h rfl

theorem remove_at_returns_entry (q : priqueue_t) (i : Int)
    (h : (priqueue_remove_at q i).1 ≠ NULL) : 0 ≤ i ∧ i < q.size := by
  by_contra hc
  rw [remove_at_out_of_range q i (by omega)] at h
  exact h rfl

theorem remove_count (q : priqueue_t) (p : Ptr) :
    (priqueue_remove q p).1 = ((seq q).count p : Nat) := by
  obtain ⟨_, h2, _, _⟩ := remove_loop_spec p _ q 0 0 rfl
  simpa using h2

/-- One call changes the size by what it inserts minus what it removes. -/
theorem apply_op_size (q : priqueue_t) (op : Op) :
    (apply_op q op).size = q.size + inserted op - removed q op := by
  cases op with
  | offer ptr => simp only [apply_op, inserted, removed]; rw [offer_size]; ring
  | peek => simp only [apply_op, inserted, removed]; rw [peek_store]; ring
  | poll =>
    simp only [apply_op, inserted, removed]
    by_cases h : q.size = 0
    · rw [poll_empty q h, if_pos h]; ring
    · rw [(poll_nonempty q h).2.1, if_neg h]; ring
  | at_index index => simp only [apply_op, inserted, removed]; rw [at_store]; ring
  | remove ptr => simp only [apply_op, inserted, removed]; rw [(seq_remove q ptr).2.2]; ring
  | remove_at index =>
    simp only [apply_op, inserted, removed]
    by_cases h : 0 ≤ index ∧ index < q.size
    · rw [remove_at_in_range q index h.1 h.2, if_pos h]; ring
    · rw [remove_at_out_of_range q index (by omega), if_neg h]; ring
  | size => simp only [apply_op, inserted, removed, priqueue_size]; ring

/-- One call keeps the size non-negative. -/
theorem apply_op_nonneg (q : priqueue_t) (op : Op) (h : 0 ≤ q.size) :
    0 ≤ (apply_op q op).size := by
  rw [apply_op_size]
  cases op with
  | offer ptr => simp only [inserted, removed]; omega
  | peek => simp only [inserted, removed]; omega
  | poll =>
    simp only [inserted, removed]
    by_cases h0 : q.size = 0
    · rw [if_pos h0]; omega
    · rw [if_neg h0]; omega
  | at_index index => simp only [inserted, removed]; omega
  | remove ptr =>
    simp only [inserted, removed]
    rw [remove_count]
    have h1 : (seq q).count ptr ≤ (seq q).length := List.count_le_length _ _
    rw [seq_length] at h1
    omega
  | remove_at index =>
    simp only [inserted, removed]
    by_cases hr : 0 ≤ index ∧ index < q.size
    · rw [if_pos hr]; omega
    · rw [if_neg hr]; omega
  | size => simp only [inserted, removed]; omega

theorem run_cons (q : priqueue_t) (op : Op) (ops : List Op) :
    run q (op :: ops) = run (apply_op q op) ops := rfl

theorem run_size (ops : List Op) :
    ∀ q : priqueue_t, (run q ops).size = q.size + net_inserted q ops := by
  induction ops with
  | nil => intro q; simp [run, net_inserted]
  | cons op ops ih =>
    intro q
    rw [run_cons, ih, apply_op_size, net_inserted]
    ring

theorem run_nonneg (ops : List Op) :
    ∀ q : priqueue_t, 0 ≤ q.size → 0 ≤ (run q ops).size := by
  induction ops with
  | nil => intro q h; exact h
  | cons op ops ih =>
    intro q h
    rw [run_cons]
    exact ih _ (apply_op_nonneg q op h)

/-- C14 (size accounting): for every store and every single call, `priqueue_size` afterwards is
the size before plus 1 for `priqueue_offer`, minus 1 for a `priqueue_poll` of a store that is
not empty and for a `priqueue_remove_at` with an index in range (these are the calls that
return an entry; a call that returns a reference other than `NULL` is one of them), minus the
returned count for `priqueue_remove`, and unchanged for `priqueue_peek`, `priqueue_at`,
`priqueue_size`, for a poll of the empty store and a remove_at out of range (which return
`NULL`). Hence after any history of calls the size is the size at the start plus the inserts
minus the removed entries, and from `priqueue_init` it is inserts minus removed entries. -/
theorem C14_size_accounting (q : priqueue_t) :
    (∀ p : Ptr, (priqueue_size (priqueue_offer q p).2).1 = (priqueue_size q).1 + 1) ∧
    (q.size ≠ 0 → (priqueue_size (priqueue_poll q).2).1 = (priqueue_size q).1 - 1) ∧
    ((priqueue_poll q).1 ≠ NULL →
      (priqueue_size (priqueue_poll q).2).1 = (priqueue_size q).1 - 1) ∧
    (q.size = 0 → (priqueue_poll q).1 = NULL ∧
      (priqueue_size (priqueue_poll q).2).1 = (priqueue_size q).1) ∧
    (∀ i : Int, 0 ≤ i → i < q.size →
      (priqueue_size (priqueue_remove_at q i).2).1 = (priqueue_size q).1 - 1) ∧
    (∀ i : Int, (priqueue_remove_at q i).1 ≠ NULL →
      (priqueue_size (priqueue_remove_at q i).2).1 = (priqueue_size q).1 - 1) ∧
    (∀ i : Int, i < 0 ∨ q.size ≤ i → (priqueue_remove_at q i).1 = NULL ∧
      (priqueue_size (priqueue_remove_at q i).2).1 = (priqueue_size q).1) ∧
    (∀ p : Ptr, (priqueue_size (priqueue_remove q p).2).1 =
      (priqueue_size q).1 - (priqueue_remove q p).1) ∧
    (priqueue_size (priqueue_peek q).2).1 = (priqueue_size q).1 ∧
    (∀ i : Int, (priqueue_size (priqueue_at q i).2).1 = (priqueue_size q).1) ∧
    (priqueue_size (priqueue_size q).2).1 = (priqueue_size q).1 ∧
    (∀ ops : List Op, (priqueue_size (run q ops)).1 = (priqueue_size q).1 + net_inserted q ops) ∧
    (∀ (c : Ptr → Ptr → Int) (ops : List Op),
      (priqueue_size (run (priqueue_init q c) ops)).1 = net_inserted (priqueue_init q c) ops) := by
  refine ⟨fun p => offer_size q p, fun h => (poll_nonempty q h).2.1,
    fun h => (poll_nonempty q (poll_returns_entry q h)).2.1, ?_, ?_, ?_, ?_,
    fun p => (seq_remove q p).2.2, ?_, ?_, rfl, fun ops => run_size ops q, ?_⟩
  · intro h
    rw [poll_empty q h]
    exact ⟨rfl, rfl⟩
  · intro i h0 h1
    rw [remove_at_in_range q i h0 h1]
    rfl
  · intro i h
    obtain ⟨h0, h1⟩ := remove_at_returns_entry q i h
    rw [remove_at_in_range q i h0 h1]
    rfl
  · intro i h
    rw [remove_at_out_of_range q i h]
    exact ⟨rfl, rfl⟩
  · rw [peek_store]
  · intro i
    rw [at_store]
  · intro c ops
    show (run (priqueue_init q c) ops).size = _
    rw [run_size]
    simp [priqueue_init]

/-- C19 (size is never negative): in every state reached from `priqueue_init` by any sequence
of calls of the interface with arbitrary arguments, `size >= 0`. -/
theorem C19_size_nonneg (q0 : priqueue_t) (c : Ptr → Ptr → Int) (ops : List Op) :
    0 ≤ (run (priqueue_init q0 c) ops).size :=
  run_nonneg ops (priqueue_init q0 c) (le_refl _)

/-- C14 on the scenario of the spec: insert 5, 3, 8, 3, remove the second 3 by value, poll,
`At(5)`, `RemoveAt(0)`. -/
theorem C14_size_accounting_witness :
    (priqueue_size (run (priqueue_init blank compare_int)
      [Op.offer 1, Op.offer 2, Op.offer 3, Op.offer 4, Op.remove 4, Op.poll, Op.at_index 5,
        Op.remove_at 0])).1 =
      net_inserted (priqueue_init blank compare_int)
        [Op.offer 1, Op.offer 2, Op.offer 3, Op.offer 4, Op.remove 4, Op.poll, Op.at_index 5,
          Op.remove_at 0] :=
  (C14_size_accounting blank).2.2.2.2.2.2.2.2.2.2.2.2 compare_int _

theorem shift_accesses_in_range (size : Int) (n : Nat) :
    ∀ j : Int, 0 ≤ j → (size - 1 - j).toNat = n →
      ∀ a ∈ shift_accesses size j, 0 ≤ a.1 ∧ a.1 < a.2 := by
  induction n with
  | zero =>
    intro j _ h a ha
    rw [shift_accesses, if_neg (by omega)] at ha
    cases ha
  | succ n ih =>
    intro j hj h a ha
    rw [shift_accesses, if_pos (by omega)] at ha
    rcases List.mem_cons.mp ha with rfl | ha
    · exact ⟨hj, by show j < size; omega⟩
    · rcases List.mem_cons.mp ha with rfl | ha
      · exact ⟨by show 0 ≤ j + 1; omega, by show j + 1 < size; omega⟩
      · exact ih (j + 1) (by omega) (by omega) a ha

/-- The instrumented loop computes what `remove_loop` computes, runs its body `size - i` times,
and from `i >= 0` touches only slots inside `[0, size)`. -/
theorem remove_loop_traced_spec (ptr : Ptr) (n : Nat) :
    ∀ (q : priqueue_t) (i count : Int), (q.size - i).toNat = n →
      (remove_loop_traced q ptr i count).1 = remove_loop q ptr i count ∧
      (remove_loop_traced q ptr i count).2.1 = n ∧
      (0 ≤ i → ∀ a ∈ (remove_loop_traced q ptr i count).2.2, 0 ≤ a.1 ∧ a.1 < a.2) := by
  induction n with
  | zero =>
    intro q i count h
    have hs : ¬ i < q.size := by omega
    rw [remove_loop_traced, remove_loop, if_neg hs, if_neg hs]
    exact ⟨rfl, rfl, fun _ a ha => by cases ha⟩
  | succ n ih =>
    intro q i count h
    have hs : i < q.size := by omega
    rw [remove_loop_traced, remove_loop, if_pos hs, if_pos hs]
    by_cases hm : q.queue i = ptr
    · rw [if_pos hm, if_pos hm]
      obtain ⟨i1, i2, i3⟩ :=
        ih { q with queue := shift_down q.queue q.size i, size := q.size - 1 } (i - 1 + 1)
          (count + 1) (by show (q.size - 1 - (i - 1 + 1)).toNat = n; omega)
      refine ⟨i1, by simp only []; rw [i2], ?_⟩
      intro hi a ha
      rcases List.mem_cons.mp ha with rfl | ha
      · exact ⟨hi, hs⟩
      · rcases List.mem_append.mp ha with ha | ha
        · exact shift_accesses_in_range q.size _ i hi rfl a ha
        · exact i3 (by omega) a ha
    · rw [if_neg hm, if_neg hm]
      obtain ⟨i1, i2, i3⟩ := ih q (i + 1) count (by omega)
      refine ⟨i1, by simp only []; rw [i2], ?_⟩
      intro hi a ha
      rcases List.mem_cons.mp ha with rfl | ha
      · exact ⟨hi, hs⟩
      · exact i3 (by omega) a ha

/-- C18 (remove-by-value terminates): the scan loop of `priqueue_remove`, instrumented with an
iteration counter and an access log, returns what `priqueue_remove` returns, executes its outer
loop body exactly `size` times on a store of size `n >= 0` (entered at any `i`, it has exactly
`size - i` iterations left, a quantity that drops by one with each of them), and every slot
access has its index in `[0, size)` for the value of `size` at that moment. -/
theorem C18_remove_terminates (q : priqueue_t) (p : Ptr) :
    (remove_loop_traced q p 0 0).1 = priqueue_remove q p ∧
    (remove_loop_traced q p 0 0).2.1 = q.size.toNat ∧
    (0 ≤ q.size → ((remove_loop_traced q p 0 0).2.1 : Int) = q.size) ∧
    (∀ i count : Int, (remove_loop_traced q p i count).2.1 = (q.size - i).toNat) ∧
    (∀ a ∈ (remove_loop_traced q p 0 0).2.2, 0 ≤ a.1 ∧ a.1 < a.2) := by
  obtain ⟨h1, h2, h3⟩ := remove_loop_traced_spec p _ q 0 0 rfl
  have e : (q.size - 0).toNat = q.size.toNat := by rw [sub_zero]
  refine ⟨h1, by rw [h2, e], ?_, ?_, h3 (le_refl _)⟩
  · intro h
    rw [h2, e]
    exact Int.toNat_of_nonneg h
  · intro i count
    exact (remove_loop_traced_spec p _ q i count rfl).2.1

theorem scenario_tied_size :
    (offer_all (priqueue_init blank compare_int) [1, 4, 2, 3]).size = 4 := by
  rw [(offer_all_eval compare_int [1, 4, 2, 3] (priqueue_init blank compare_int)
      (by decide) rfl).1]
  decide

/-- C18 on the scenario of the spec: removing the reference of the second 3 from the store of
size 4 takes 4 iterations. -/
theorem C18_remove_terminates_witness :
    0 ≤ (offer_all (priqueue_init blank compare_int) [1, 4, 2, 3]).size ∧
    (remove_loop_traced (offer_all (priqueue_init blank compare_int) [1, 4, 2, 3]) 4 0 0).2.1
      = 4 ∧
    (remove_loop_traced (offer_all (priqueue_init blank compare_int) [1, 4, 2, 3]) 4 0 0).1 =
      priqueue_remove (offer_all (priqueue_init blank compare_int) [1, 4, 2, 3]) 4 := by
  obtain ⟨h1, h2, _, _, _⟩ :=
    C18_remove_terminates (offer_all (priqueue_init blank compare_int) [1, 4, 2, 3]) 4
  rw [scenario_tied_size] at h2
  refine ⟨by rw [scenario_tied_size]; decide, ?_, h1⟩
  rw [h2]
  decide

end PriQueue
